import Mathlib

/-!
Verification of the Simplex LPP solver (repository `SimplexAlgorithm`).

This file gives a shallow embedding of the repository's code:

* `utils.parse_equation` — the regex-based coefficient/variable scanner
  (regex `([-+]{0,1}\d*)([\w\d]+)` applied with `findall` after removing
  spaces), embedded at character-list level with backtracking semantics;
* `equation.Equation` — equation construction with optional sign flip;
* `constraint.Constraint.parse` — constraint normalization (splitting on
  the relation, slack/surplus injection, `pad`);
* `lpp.LPP` — tableau generation and the pivoting loop of `solve`
  (`_display_intermediate_result`, `_get_entering_variable`,
  `_get_pivot_row`, `_update_tableau`), with machine floats idealized as
  rationals and Python exceptions as explicit result constructors.

Theorems below settle the frozen claims C1-C10 about this program.
-/

/-! ## Character classes (Python `\d` and `[\w\d]`, ASCII fragment) -/

def isWordChar (c : Char) : Bool := c.isAlphanum || c = '_'

/-! ## The term scanner of `utils.parse_equation`

`re.findall(r"([-+]{0,1}\d*)([\w\d]+)", s)` scans left to right.  At a
given position the engine greedily takes an optional sign, then a greedy
digit run for group 1, then needs a nonempty word-character run for
group 2; if the word run after the digits is empty the `\d*` backtracks
one digit so that group 2 can take the last digit.  If no match starts at
a position the engine advances one character (that character is silently
skipped). -/

def matchTerm (cs : List Char) : Option ((List Char × List Char) × List Char) :=
  let sgn : List Char × List Char :=
    match cs with
    | c :: rest => if c = '+' || c = '-' then ([c], rest) else ([], cs)
    | [] => ([], [])
  let ds := sgn.2.takeWhile Char.isDigit
  let r2 := sgn.2.dropWhile Char.isDigit
  let ws := r2.takeWhile isWordChar
  let r3 := r2.dropWhile isWordChar
  if ws ≠ [] then some ((sgn.1 ++ ds, ws), r3)
  else if ds ≠ [] then some ((sgn.1 ++ ds.dropLast, [ds.getLastD ' ']), r2)
  else none

/-- Fueled scanner: returns the matched (group1, group2) pairs in order,
together with a flag recording whether any character was skipped without
belonging to a match. -/
def scanTermsAux : ℕ → List Char → List (List Char × List Char) × Bool
  | 0, _ => ([], false)
  | _ + 1, [] => ([], false)
  | fuel + 1, c :: cs =>
    match matchTerm (c :: cs) with
    | some (pr, rest) =>
      let r := scanTermsAux fuel rest
      (pr :: r.1, r.2)
    | none =>
      let r := scanTermsAux fuel cs
      (r.1, true)

def scanTerms (cs : List Char) : List (List Char × List Char) × Bool :=
  scanTermsAux (cs.length + 1) cs

/-! ## Coefficient extraction (`utils.parse_equation`, lines 111-122) -/

def natOfDigits (ds : List Char) : ℕ :=
  ds.foldl (fun a c => a * 10 + (c.toNat - 48)) 0

/-- Python `int(...)` on a string of shape `[sign]digits`. -/
def intOfChars : List Char → ℤ
  | '-' :: ds => -(natOfDigits ds : ℤ)
  | '+' :: ds => (natOfDigits ds : ℤ)
  | ds => (natOfDigits ds : ℤ)

/-- Coefficient of a matched pair: lone `-` gives -1, empty or lone `+`
gives 1, otherwise the parsed integer literal. -/
def coeffOfGroup (g : List Char) : ℤ :=
  if g = ['-'] then -1
  else if g = [] ∨ g = ['+'] then 1
  else intOfChars g

/-- Embedding of `utils.parse_equation`: spaces are removed, the term
scanner is run, and each pair is turned into a coefficient and a variable
name.  The function is total: unmatched characters are skipped, never
reported. -/
def parse_equation (s : String) : List ℤ × List String :=
  let pairs := (scanTerms (s.data.filter (fun c => c ≠ ' '))).1
  (pairs.map (fun pr => coeffOfGroup pr.1), pairs.map (fun pr => String.mk pr.2))

/-- Modelled from the spec (§4.1 LinearExpression): the spec demands that
parsing "Fails with `ParseError` when the left-hand side contains a token
matching no grammar-valid variable/coefficient pair".  This spec-side
variant returns `none` exactly when the scanner had to skip characters. -/
def parse_equation_spec (s : String) : Option (List ℤ × List String) :=
  let r := scanTerms (s.data.filter (fun c => c ≠ ' '))
  if r.2 then none
  else some (r.1.map (fun pr => coeffOfGroup pr.1), r.1.map (fun pr => String.mk pr.2))

example : parse_equation "5x_1 + 7x_2 - 6x3" = ([5, 7, -6], ["x_1", "x_2", "x3"]) := by decide
example : parse_equation "-x1 + x2" = ([-1, 1], ["x1", "x2"]) := by decide
example : parse_equation "x1 + @@" = ([1], ["x1"]) := by decide
example : parse_equation "-3" = ([-1], ["3"]) := by decide
example : parse_equation "42" = ([4], ["2"]) := by decide
example : parse_equation_spec "x1 + @@" = none := by decide
example : parse_equation_spec "x1 + x2" = some ([1, 1], ["x1", "x2"]) := by decide

/-! ## Numeric literal parsing (Python `float(...)` on the RHS strings) -/

def trimSpaces (cs : List Char) : List Char :=
  ((cs.dropWhile (· = ' ')).reverse.dropWhile (· = ' ')).reverse

/-- Python `float(s)` restricted to the decimal literals this program
feeds it: optional sign, digits, optional fractional part.  `none` models
the `ValueError` raised on anything else. -/
def parseFloatQ (cs0 : List Char) : Option ℚ :=
  let cs := trimSpaces cs0
  let sgn : ℚ × List Char :=
    match cs with
    | '-' :: rest => (-1, rest)
    | '+' :: rest => (1, rest)
    | _ => (1, cs)
  let ds := sgn.2.takeWhile Char.isDigit
  let rest2 := sgn.2.dropWhile Char.isDigit
  match rest2 with
  | [] => if ds = [] then none else some (sgn.1 * natOfDigits ds)
  | '.' :: fs =>
    let fds := fs.takeWhile Char.isDigit
    if fs.dropWhile Char.isDigit ≠ [] then none
    else if ds = [] ∧ fds = [] then none
    else some (sgn.1 * ((natOfDigits ds : ℚ) + (natOfDigits fds : ℚ) / (10 ^ fds.length)))
  | _ => none

/-! ## Relation splitting (`re.split(r"(>=|=|<=)", ...)` in `Constraint.parse`) -/

/-- Split on the relation operators with the captured separators, with the
regex alternation order `>=`, `=`, `<=`.  Returns the text before the
first separator and the list of (separator, following text) pairs. -/
def splitRel : List Char → List Char × List (String × List Char)
  | [] => ([], [])
  | '>' :: '=' :: rest =>
    let r := splitRel rest
    ([], (">=", r.1) :: r.2)
  | '<' :: '=' :: rest =>
    let r := splitRel rest
    ([], ("<=", r.1) :: r.2)
  | '=' :: rest =>
    let r := splitRel rest
    ([], ("=", r.1) :: r.2)
  | c :: rest =>
    let r := splitRel rest
    (c :: r.1, r.2)

/-- Split on every `:` or `=` character (`re.split(r":|=", objective)`,
separators not captured). -/
def splitColonEq : List Char → List (List Char)
  | [] => [[]]
  | ':' :: rest => [] :: splitColonEq rest
  | '=' :: rest => [] :: splitColonEq rest
  | c :: rest =>
    match splitColonEq rest with
    | [] => [[c]]
    | seg :: segs => (c :: seg) :: segs

example : splitRel "6x1 + 4x2 <= 24".data =
    ("6x1 + 4x2 ".data, [("<=", " 24".data)]) := by decide
example : splitRel "x1 >= -4".data = ("x1 ".data, [(">=", " -4".data)]) := by decide
example : splitRel "x1 + x2 = 4".data = ("x1 + x2 ".data, [("=", " 4".data)]) := by decide
example : splitColonEq "Maximize: z = 2x1 + x2".data =
    ["Maximize".data, " z ".data, " 2x1 + x2".data] := by decide

/-! ## `equation.Equation` -/

structure Equation where
  b : ℚ
  A : List ℚ
deriving DecidableEq

/-- Embedding of `Equation.parse` (equation.py lines 63-97): build the
coefficient vector of the left-hand side.  When the scanned variable list
has the same length as the ambient variable list the raw scan-order
coefficients are used; otherwise a dict fills missing variables with 0
(later duplicate keys overwrite earlier ones). -/
def Equation.parseA (lhs : String) (vars : List String) : List ℚ :=
  let cX := parse_equation lhs
  if cX.2.length ≠ vars.length then
    vars.map (fun v =>
      match ((cX.2.zip cX.1).reverse.find? (fun pr => pr.1 = v)) with
      | some pr => (pr.2 : ℚ)
      | none => 0)
  else cX.1.map (fun (z : ℤ) => (z : ℚ))

/-- Embedding of `Equation.__init__`: parse the coefficient vector and,
when `flip_sign` is set, multiply the whole equation (including the RHS)
by -1. -/
def Equation.make (lhs : String) (rhsv : ℚ) (vars : List String) (flip : Bool) : Equation :=
  let A := Equation.parseA lhs vars
  if flip then ⟨-rhsv, A.map (fun x => -x)⟩ else ⟨rhsv, A⟩

/-! ## `constraint.Constraint` -/

structure ConstraintOut where
  vars : List String
  slack_vars : List String
  equation : Equation
deriving DecidableEq

/-- The fresh slack/surplus name: `s` followed by the incremented numeric
suffix of the last variable (`f"s{last_variable_subscript + 1}"`). -/
def slack_name (lastChar : Char) : String := "s" ++ toString (lastChar.toNat - 48 + 1)

/-- Embedding of `Constraint.parse` (constraint.py lines 55-116).  `none`
models an uncaught Python exception (relation missing or repeated, empty
variable list, non-digit variable suffix, unparseable RHS).  Note the
source guard is `sign_type != "=="`, which is true for all three
relations the split can produce, so the fresh variable is appended to
both registries for `=` constraints as well. -/
def Constraint.parse (constraint : String) (vars slack_vars : List String) :
    Option ConstraintOut :=
  match splitRel constraint.data with
  | (lhs, [(sign_type, rhsCs)]) =>
    if sign_type ≠ "==" then
      match vars.getLast? with
      | none => none
      | some last_variable =>
        match last_variable.data.getLast? with
        | none => none
        | some lastChar =>
          if lastChar.isDigit then
            let slack_var := slack_name lastChar
            let vars2 := vars ++ [slack_var]
            let slacks2 := slack_vars ++ [slack_var]
            let lhs2 : List Char :=
              if sign_type = "<=" then lhs ++ ("+ " ++ slack_var).data else lhs
            if sign_type = ">=" then
              match parseFloatQ rhsCs with
              | none => none
              | some rhsv =>
                if rhsv < 0 then
                  some ⟨vars2, slacks2,
                    Equation.make (String.mk (lhs ++ ("- " ++ slack_var).data)) rhsv vars2 true⟩
                else
                  some ⟨vars2, slacks2, Equation.make (String.mk lhs2) rhsv vars2 false⟩
            else
              match parseFloatQ rhsCs with
              | none => none
              | some rhsv =>
                some ⟨vars2, slacks2, Equation.make (String.mk lhs2) rhsv vars2 false⟩
          else none
    else
      match parseFloatQ rhsCs with
      | none => none
      | some rhsv =>
        some ⟨vars, slack_vars, Equation.make (String.mk lhs) rhsv vars false⟩
  | _ => none

/-- Embedding of `Constraint.pad` (constraint.py lines 119-125):
`np.pad(A, (1, len(variables) - len(A)))` prepends one zero (the z
column) and appends zeros up to the final variable count. -/
def Constraint.pad (eq : Equation) (vars : List String) : Equation :=
  if (vars.length : ℤ) - eq.A.length ≥ 0 then
    { eq with A := 0 :: (eq.A ++ List.replicate (vars.length - eq.A.length) 0) }
  else eq

/-! ## `LPP.__init__` and `LPP.generate_simplex_tableau` -/

/-- Embedding of `LPP.parse_constraints` (lpp.py lines 137-163) before the
pad pass: thread the shared variable and slack lists through each
constraint. -/
def LPP.parse_constraints (constraints : List String) (X basics : List String) :
    Option (List String × List String × List Equation) :=
  constraints.foldl
    (fun acc cstr =>
      match acc with
      | none => none
      | some (vars, bs, eqs) =>
        match Constraint.parse cstr vars bs with
        | none => none
        | some out => some (out.vars, out.slack_vars, eqs ++ [out.equation]))
    (some (X, basics, []))

/-- The whole solver state: the LPP attributes mutated by `solve`,
plus the loop-local `is_potentially_degenerate` flag. -/
structure SState where
  problem_type : String
  tableau : List (List ℚ)
  X : List String
  basic_variables : List String
  solution : List (String × Option ℚ)
  alternative_solution : List (String × Option ℚ)
  alternative_optima_exist : Bool
  degenerate_solution : Bool
  unbounded_feasible_region : Bool
  is_potentially_degenerate : Bool
  z : Option ℚ
deriving DecidableEq

/-- Embedding of `LPP.__init__` followed by
`LPP.generate_simplex_tableau`: parse the objective, parse the
constraints (mutating the shared variable list), pad every equation, and
assemble the tableau `[[1, -c, 0...], [A | b]]`.  `none` models a crash
(objective shape, constraint parse failure, or `np.vstack` on an empty
constraint matrix). -/
def buildLPP (objective : String) (constraints : List String) : Option SState :=
  match splitColonEq objective.data with
  | [ptCs, _objVar, objFnCs] =>
    let cX0 := parse_equation (String.mk objFnCs)
    let c : List ℚ := cX0.1.map (fun (z : ℤ) => (z : ℚ))
    (match LPP.parse_constraints constraints cX0.2 [] with
     | none => none
     | some (X, basics, eqs0) =>
       if constraints = [] then none
       else
         let eqs := eqs0.map (fun e => Constraint.pad e X)
         let row0 : List ℚ :=
           1 :: ((c.map (fun x => -x) ++ List.replicate (X.length - c.length) 0) ++ [0])
         let rows := eqs.map (fun e => e.A ++ [e.b])
         some { problem_type := String.mk ptCs
                tableau := row0 :: rows
                X := X
                basic_variables := basics
                solution := X.map (fun v => (v, none))
                alternative_solution := X.map (fun v => (v, none))
                alternative_optima_exist := false
                degenerate_solution := false
                unbounded_feasible_region := false
                is_potentially_degenerate := false
                z := none })
  | _ => none

example : Constraint.parse "x1 + x2 = 4" ["x1", "x2"] [] =
    some ⟨["x1", "x2", "s3"], ["s3"], ⟨4, [1, 1, 0]⟩⟩ := by
  simp +decide [Constraint.parse, splitRel, Equation.make, Equation.parseA, parse_equation,
    parseFloatQ, trimSpaces, coeffOfGroup, intOfChars, natOfDigits]

example : Constraint.parse "x1 >= -4" ["x1"] [] =
    some ⟨["x1", "s2"], ["s2"], ⟨4, [-1, 1]⟩⟩ := by
  simp +decide [Constraint.parse, splitRel, Equation.make, Equation.parseA, parse_equation,
    parseFloatQ, trimSpaces, coeffOfGroup, intOfChars, natOfDigits]

/-! ## Auxiliary numeric selection functions (numpy `min`, `argmin`, ...)

`np.min`/`np.max` of a nonempty array, and `np.argmin`/`np.argmax`, which
return the first index attaining the extreme value. -/

def npMinimum : List ℚ → ℚ
  | [] => 0
  | x :: xs => xs.foldl min x

def npMaximum : List ℚ → ℚ
  | [] => 0
  | x :: xs => xs.foldl max x

/-- First index of `a` in `l` (length of `l` if absent). -/
def idxOf {α : Type} [DecidableEq α] (a : α) : List α → ℕ
  | [] => 0
  | x :: xs => if x = a then 0 else idxOf a xs + 1

/-! ## `LPP._display_intermediate_result` (lpp.py lines 215-261) -/

/-- Python dict update `d[k] = v` for keys already present. -/
def setVal (d : List (String × Option ℚ)) (k : String) (v : ℚ) : List (String × Option ℚ) :=
  d.map (fun pr => if pr.1 = k then (pr.1, some v) else pr)

/-- The loop over basic variables: write each basic variable's RHS value
into the solution, stopping with a raised `ZeroBasicVariableError` as soon
as one of them is exactly 0 (remaining entries are left untouched). -/
def displayBasicLoop (t : List (List ℚ)) (sol : List (String × Option ℚ)) :
    List String → ℕ → List (String × Option ℚ) × Bool
  | [], _ => (sol, false)
  | var :: rest, idx =>
    let row := t.getD (idx + 1) []
    let v := row.getD (row.length - 1) 0
    let sol2 := setVal sol var v
    if v = 0 then (sol2, true)
    else displayBasicLoop t sol2 rest (idx + 1)

/-- Embedding of `_display_intermediate_result`: record `z`, set every
non-basic variable to 0, then walk the basic variables; the returned flag
records whether `ZeroBasicVariableError` was raised. -/
def displayStep (s : SState) (non_basic : List String) : SState × Bool :=
  let row0 := s.tableau.getD 0 []
  let z := row0.getD (row0.length - 1) 0
  let sol1 := non_basic.foldl (fun d v => setVal d v 0) s.solution
  let r := displayBasicLoop s.tableau sol1 s.basic_variables 0
  ({ s with z := some z, solution := r.1 }, r.2)

/-! ## `LPP._get_entering_variable` (lpp.py lines 271-361) -/

/-- Outcome of `_get_entering_variable`: `err` models an uncaught Python
exception (IndexError past the variable list, NameError on an unknown
problem type, or `np.min` of an empty slice), `zeroStop` models
`ZeroEnteringVariableError`, `proceed cidx` a normal return with the
pivot column index. -/
inductive EnterOut
  | err
  | zeroStop
  | proceed (cidx : ℕ)
deriving DecidableEq

/-- Embedding of `_get_entering_variable`.  The scan covers the whole
objective row except column 0 — including the trailing RHS column.  On a
zero extreme value at a non-basic variable (with the flag unset) the
current solution is snapshotted into `alternative_solution`, the flag is
set, and the iteration proceeds. -/
def enterStep (s : SState) (non_basic : List String) : SState × EnterOut :=
  let row0 := s.tableau.getD 0 []
  let vals := row0.drop 1
  let lower := String.mk (s.problem_type.data.map Char.toLower)
  if vals = [] then (s, .err)
  else if lower = "maximize" ∨ lower = "minimize" then
    let v := if lower = "maximize" then npMinimum vals else npMaximum vals
    let pivot_col_idx := idxOf v vals + 1
    if pivot_col_idx - 1 < s.X.length then
      let pivot_col_name := s.X.getD (pivot_col_idx - 1) ""
      if v = 0 then
        if ¬s.alternative_optima_exist ∧ pivot_col_name ∈ non_basic then
          ({ s with alternative_optima_exist := true, alternative_solution := s.solution },
            .proceed pivot_col_idx)
        else (s, .zeroStop)
      else (s, .proceed pivot_col_idx)
    else (s, .err)
  else (s, .err)

/-! ## `LPP._get_pivot_row` (lpp.py lines 437-489) -/

/-- Result of `_get_pivot_row`: `noPos` models `NoPositiveRatioError`,
`err` an uncaught exception (`np.min` of an empty array, or IndexError on
the basic-variable list). -/
inductive PivotRowRes
  | found (ridx : ℕ) (name : String)
  | noPos
  | err
deriving DecidableEq

/-- The ratio vector: `np.divide(rhs, col, out=nan, where=col != 0)`
computes RHS/value for every row whose pivot-column value is non-zero
(`none` models the NaN left where the value is zero). -/
def ratioList (t : List (List ℚ)) (cidx : ℕ) : List (Option ℚ) :=
  (t.drop 1).map (fun r =>
    let p := r.getD cidx 0
    if p = 0 then none else some (r.getD (r.length - 1) 0 / p))

/-- `np.where(ratios > 0, ratios, np.inf)`: non-positive ratios and NaNs
become infinity (`none` models infinity here). -/
def maskPos : Option ℚ → Option ℚ
  | none => none
  | some q => if 0 < q then some q else none

/-- Minimum of a masked ratio array, `none` being `np.inf`. -/
def minInf (a b : Option ℚ) : Option ℚ :=
  match a, b with
  | none, b => b
  | a, none => a
  | some x, some y => some (min x y)

/-- Embedding of `_get_pivot_row`: mask the ratios, take the minimum,
raise `NoPositiveRatioError` when it is non-positive or infinite, and
otherwise return the first row attaining it together with its basic
variable. -/
def getPivotRow (t : List (List ℚ)) (cidx : ℕ) (basic : List String) : PivotRowRes :=
  let masked := (ratioList t cidx).map maskPos
  if masked = [] then .err
  else
    match masked.foldl minInf none with
    | none => .noPos
    | some m =>
      if m ≤ 0 then .noPos
      else
        let i := idxOf (some m) masked
        if i < basic.length then .found (i + 1) (basic.getD i "")
        else .err

/-! ## `LPP._update_tableau` (lpp.py lines 390-434) -/

/-- Embedding of `_update_tableau`: divide the pivot row by the pivot
element; from every other row subtract its own pivot-column value times
the new pivot row. -/
def updateTableau (t : List (List ℚ)) (ridx cidx : ℕ) (p : ℚ) : List (List ℚ) :=
  let newPivot := (t.getD ridx []).map (fun x => x / p)
  (List.range t.length).map (fun i =>
    if i = ridx then newPivot
    else
      let row := t.getD i []
      let corr := row.getD cidx 0
      List.zipWith (fun a b => a - corr * b) row newPivot)

/-! ## The `LPP.solve` loop (lpp.py lines 492-608) -/

inductive ExitReason
  | degenerate
  | optimal
  | unbounded
  | crash
deriving DecidableEq

inductive IterRes
  | exit (s : SState) (r : ExitReason)
  | cont (s : SState)
deriving DecidableEq

/-- The state after the display step, with the potential-degeneracy flag
set when `ZeroBasicVariableError` was raised (first occurrence). -/
def postDisplay (s : SState) (non_basic : List String) : SState :=
  if (displayStep s non_basic).2 = true then
    { (displayStep s non_basic).1 with is_potentially_degenerate := true }
  else (displayStep s non_basic).1

/-- One iteration of the `solve` loop, also reporting whether
`ZeroBasicVariableError` was raised by the display step. -/
def solveIterR (s : SState) : Bool × IterRes :=
  let non_basic := s.X.filter (fun v => ¬ v ∈ s.basic_variables)
  let dr := displayStep s non_basic
  let s1 := dr.1
  let raised := dr.2
  if raised ∧ s1.is_potentially_degenerate then
    (raised, .exit { s1 with degenerate_solution := true } .degenerate)
  else
    let s2 := postDisplay s non_basic
    match enterStep s2 non_basic with
    | (s3, .err) => (raised, .exit s3 .crash)
    | (s3, .zeroStop) => (raised, .exit s3 .optimal)
    | (s3, .proceed cidx) =>
      match getPivotRow s3.tableau cidx s3.basic_variables with
      | .err => (raised, .exit s3 .crash)
      | .noPos => (raised, .exit { s3 with unbounded_feasible_region := true } .unbounded)
      | .found ridx _ =>
        let p := (s3.tableau.getD ridx []).getD cidx 0
        let pivot_col_name := s3.X.getD (cidx - 1) ""
        let basic2 := s3.basic_variables.set (ridx - 1) pivot_col_name
        let t2 := updateTableau s3.tableau ridx cidx p
        (raised, .cont { s3 with basic_variables := basic2, tableau := t2 })

def solveIter (s : SState) : IterRes := (solveIterR s).2

/-- The fueled `solve` loop: `none` means fuel ran out (the source loop
has no iteration cap). -/
def solveLoop : ℕ → SState → Option (SState × ExitReason)
  | 0, _ => none
  | fuel + 1, s =>
    match solveIter s with
    | .exit s2 r => some (s2, r)
    | .cont s2 => solveLoop fuel s2

/-- The loop together with the per-iteration trace of
`ZeroBasicVariableError` events. -/
def solveTrace : ℕ → SState → List Bool × Option (SState × ExitReason)
  | 0, _ => ([], none)
  | fuel + 1, s =>
    match solveIterR s with
    | (raised, .exit s2 r) => ([raised], some (s2, r))
    | (raised, .cont s2) =>
      let rec2 := solveTrace fuel s2
      (raised :: rec2.1, rec2.2)

/-! ## Concrete runs used by several claims

`altUnbLPP` is the LPP `Maximize: z = 0x1` subject to `-x1 <= 2`.  Its
run detects alternate optima (zero objective coefficient on the
non-basic `x1`) and then fails the ratio test, leaving **both** the
alternate-optima flag and the unbounded flag set at exit.

`degLPP` is the LPP `Maximize: z = 2x1 + x2` subject to `x1 - x2 <= 0`,
`x1 <= 2`, `x2 <= 2`.  Its run observes a zero-valued basic variable at
iteration 0, none at iteration 1, and another at iteration 2, at which
point the loop stops with the Degenerate classification even though the
two observations are not consecutive. -/

def altUnbState0 : SState :=
  { problem_type := "Maximize"
    tableau := [[1, 0, 0, 0], [0, -1, 1, 2]]
    X := ["x1", "s2"]
    basic_variables := ["s2"]
    solution := [("x1", none), ("s2", none)]
    alternative_solution := [("x1", none), ("s2", none)]
    alternative_optima_exist := false
    degenerate_solution := false
    unbounded_feasible_region := false
    is_potentially_degenerate := false
    z := none }

def altUnbStateF : SState :=
  { problem_type := "Maximize"
    tableau := [[1, 0, 0, 0], [0, -1, 1, 2]]
    X := ["x1", "s2"]
    basic_variables := ["s2"]
    solution := [("x1", some 0), ("s2", some 2)]
    alternative_solution := [("x1", some 0), ("s2", some 2)]
    alternative_optima_exist := true
    degenerate_solution := false
    unbounded_feasible_region := true
    is_potentially_degenerate := false
    z := some 0 }

lemma altUnb_build : buildLPP "Maximize: z = 0x1" ["-x1 <= 2"] = some altUnbState0 := by
  simp +decide [buildLPP, splitColonEq, parse_equation, LPP.parse_constraints, Constraint.parse,
    splitRel, Equation.make, Equation.parseA, parseFloatQ, trimSpaces, coeffOfGroup, intOfChars,
    natOfDigits, Constraint.pad, altUnbState0]

lemma altUnb_iter : solveIter altUnbState0 = .exit altUnbStateF .unbounded := by
  simp +decide [solveIter, solveIterR, postDisplay, displayStep, displayBasicLoop, setVal, enterStep,
    npMinimum, npMaximum, idxOf, getPivotRow, ratioList, maskPos, minInf, updateTableau,
    List.range_succ, altUnbState0, altUnbStateF]

def degState0 : SState :=
  { problem_type := "Maximize"
    tableau := [[1, -2, -1, 0, 0, 0, 0], [0, 1, -1, 1, 0, 0, 0],
                [0, 1, 0, 0, 1, 0, 2], [0, 0, 1, 0, 0, 1, 2]]
    X := ["x1", "x2", "s3", "s4", "s5"]
    basic_variables := ["s3", "s4", "s5"]
    solution := [("x1", none), ("x2", none), ("s3", none), ("s4", none), ("s5", none)]
    alternative_solution := [("x1", none), ("x2", none), ("s3", none), ("s4", none), ("s5", none)]
    alternative_optima_exist := false
    degenerate_solution := false
    unbounded_feasible_region := false
    is_potentially_degenerate := false
    z := none }

def degState1 : SState :=
  { problem_type := "Maximize"
    tableau := [[1, 0, -1, 0, 2, 0, 4], [0, 0, -1, 1, -1, 0, -2],
                [0, 1, 0, 0, 1, 0, 2], [0, 0, 1, 0, 0, 1, 2]]
    X := ["x1", "x2", "s3", "s4", "s5"]
    basic_variables := ["s3", "x1", "s5"]
    solution := [("x1", some 0), ("x2", some 0), ("s3", some 0), ("s4", none), ("s5", none)]
    alternative_solution := [("x1", none), ("x2", none), ("s3", none), ("s4", none), ("s5", none)]
    alternative_optima_exist := false
    degenerate_solution := false
    unbounded_feasible_region := false
    is_potentially_degenerate := true
    z := some 0 }

def degState2 : SState :=
  { problem_type := "Maximize"
    tableau := [[1, 0, 0, -1, 3, 0, 6], [0, 0, 1, -1, 1, 0, 2],
                [0, 1, 0, 0, 1, 0, 2], [0, 0, 0, 1, -1, 1, 0]]
    X := ["x1", "x2", "s3", "s4", "s5"]
    basic_variables := ["x2", "x1", "s5"]
    solution := [("x1", some 2), ("x2", some 0), ("s3", some (-2)), ("s4", some 0), ("s5", some 2)]
    alternative_solution := [("x1", none), ("x2", none), ("s3", none), ("s4", none), ("s5", none)]
    alternative_optima_exist := false
    degenerate_solution := false
    unbounded_feasible_region := false
    is_potentially_degenerate := true
    z := some 4 }

def degStateF : SState :=
  { problem_type := "Maximize"
    tableau := [[1, 0, 0, -1, 3, 0, 6], [0, 0, 1, -1, 1, 0, 2],
                [0, 1, 0, 0, 1, 0, 2], [0, 0, 0, 1, -1, 1, 0]]
    X := ["x1", "x2", "s3", "s4", "s5"]
    basic_variables := ["x2", "x1", "s5"]
    solution := [("x1", some 2), ("x2", some 2), ("s3", some 0), ("s4", some 0), ("s5", some 0)]
    alternative_solution := [("x1", none), ("x2", none), ("s3", none), ("s4", none), ("s5", none)]
    alternative_optima_exist := false
    degenerate_solution := true
    unbounded_feasible_region := false
    is_potentially_degenerate := true
    z := some 6 }

lemma deg_build :
    buildLPP "Maximize: z = 2x1 + x2" ["x1 - x2 <= 0", "x1 <= 2", "x2 <= 2"]
      = some degState0 := by
  simp +decide [buildLPP, splitColonEq, parse_equation, LPP.parse_constraints, Constraint.parse,
    splitRel, Equation.make, Equation.parseA, parseFloatQ, trimSpaces, coeffOfGroup, intOfChars,
    natOfDigits, Constraint.pad, degState0]

lemma deg_iter0 : solveIterR degState0 = (true, .cont degState1) := by
  simp +decide [solveIterR, postDisplay, displayStep, displayBasicLoop, setVal, enterStep,
    npMinimum, npMaximum, idxOf, getPivotRow, ratioList, maskPos, minInf, updateTableau,
    List.range_succ, degState0, degState1]
  all_goals norm_num

lemma deg_iter1 : solveIterR degState1 = (false, .cont degState2) := by
  simp +decide [solveIterR, postDisplay, displayStep, displayBasicLoop, setVal, enterStep,
    npMinimum, npMaximum, idxOf, getPivotRow, ratioList, maskPos, minInf, updateTableau,
    List.range_succ, degState1, degState2]
  all_goals norm_num

lemma deg_iter2 : solveIterR degState2 = (true, .exit degStateF .degenerate) := by
  simp +decide [solveIterR, postDisplay, displayStep, displayBasicLoop, setVal, enterStep,
    npMinimum, npMaximum, idxOf, getPivotRow, ratioList, maskPos, minInf, updateTableau,
    List.range_succ, degState2, degStateF]

/-! ## Flag bookkeeping of the solve loop

The `degenerate_solution` and `unbounded_feasible_region` flags are set
only immediately before their respective `break`s, so at most one of them
can be set during a single run. -/

lemma displayStep_deg (s : SState) (nb : List String) :
    (displayStep s nb).1.degenerate_solution = s.degenerate_solution := rfl

lemma displayStep_unb (s : SState) (nb : List String) :
    (displayStep s nb).1.unbounded_feasible_region = s.unbounded_feasible_region := rfl

lemma enterStep_deg (s : SState) (nb : List String) :
    (enterStep s nb).1.degenerate_solution = s.degenerate_solution := by
  unfold enterStep
  dsimp only
  repeat' split
  all_goals rfl

lemma enterStep_unb (s : SState) (nb : List String) :
    (enterStep s nb).1.unbounded_feasible_region = s.unbounded_feasible_region := by
  unfold enterStep
  dsimp only
  repeat' split
  all_goals rfl

lemma solveIter_cont_flags (s s2 : SState) (h : solveIter s = .cont s2) :
    s2.degenerate_solution = s.degenerate_solution ∧
    s2.unbounded_feasible_region = s.unbounded_feasible_region := by
  unfold solveIter solveIterR at h
  set nb := s.X.filter (fun v => ¬ v ∈ s.basic_variables) with hnb
  simp only at h
  split at h
  · simp at h
  · rcases h2 : enterStep (postDisplay s nb) nb with ⟨s3, eo⟩
    rw [h2] at h
    have hd3 : s3.degenerate_solution = s.degenerate_solution := by
      have := enterStep_deg (postDisplay s nb) nb
      rw [h2] at this
      unfold postDisplay at this
      by_cases hb : (displayStep s nb).2 = true
      · simpa [hb, displayStep_deg] using this
      · simpa [hb, displayStep_deg] using this
    have hu3 : s3.unbounded_feasible_region = s.unbounded_feasible_region := by
      have := enterStep_unb (postDisplay s nb) nb
      rw [h2] at this
      unfold postDisplay at this
      by_cases hb : (displayStep s nb).2 = true
      · simpa [hb, displayStep_unb] using this
      · simpa [hb, displayStep_unb] using this
    cases eo with
    | err => simp at h
    | zeroStop => simp at h
    | proceed cidx =>
      simp only at h
      split at h
      · simp at h
      · simp at h
      · simp only [IterRes.cont.injEq] at h
        subst h
        exact ⟨hd3, hu3⟩

lemma solveIter_exit_flags (s s2 : SState) (r : ExitReason) (h : solveIter s = .exit s2 r) :
    (r = .degenerate → s2.degenerate_solution = true ∧
        s2.unbounded_feasible_region = s.unbounded_feasible_region) ∧
    (r = .unbounded → s2.unbounded_feasible_region = true ∧
        s2.degenerate_solution = s.degenerate_solution) ∧
    ((r = .optimal ∨ r = .crash) → s2.degenerate_solution = s.degenerate_solution ∧
        s2.unbounded_feasible_region = s.unbounded_feasible_region) := by
  unfold solveIter solveIterR at h
  set nb := s.X.filter (fun v => ¬ v ∈ s.basic_variables) with hnb
  simp only at h
  split at h
  · simp only [IterRes.exit.injEq] at h
    obtain ⟨h1, h2⟩ := h
    subst h1; subst h2
    refine ⟨fun _ => ⟨rfl, displayStep_unb s nb⟩, fun hr => by simp at hr, fun hr => by simp at hr⟩
  · rcases h2 : enterStep (postDisplay s nb) nb with ⟨s3, eo⟩
    rw [h2] at h
    have hd3 : s3.degenerate_solution = s.degenerate_solution := by
      have := enterStep_deg (postDisplay s nb) nb
      rw [h2] at this
      unfold postDisplay at this
      by_cases hb : (displayStep s nb).2 = true
      · simpa [hb, displayStep_deg] using this
      · simpa [hb, displayStep_deg] using this
    have hu3 : s3.unbounded_feasible_region = s.unbounded_feasible_region := by
      have := enterStep_unb (postDisplay s nb) nb
      rw [h2] at this
      unfold postDisplay at this
      by_cases hb : (displayStep s nb).2 = true
      · simpa [hb, displayStep_unb] using this
      · simpa [hb, displayStep_unb] using this
    cases eo with
    | err =>
      simp only [IterRes.exit.injEq] at h
      obtain ⟨h1, h2r⟩ := h
      subst h1; subst h2r
      exact ⟨fun hr => by simp at hr, fun hr => by simp at hr, fun _ => ⟨hd3, hu3⟩⟩
    | zeroStop =>
      simp only [IterRes.exit.injEq] at h
      obtain ⟨h1, h2r⟩ := h
      subst h1; subst h2r
      exact ⟨fun hr => by simp at hr, fun hr => by simp at hr, fun _ => ⟨hd3, hu3⟩⟩
    | proceed cidx =>
      simp only at h
      split at h
      · simp only [IterRes.exit.injEq] at h
        obtain ⟨h1, h2r⟩ := h
        subst h1; subst h2r
        exact ⟨fun hr => by simp at hr, fun hr => by simp at hr, fun _ => ⟨hd3, hu3⟩⟩
      · simp only [IterRes.exit.injEq] at h
        obtain ⟨h1, h2r⟩ := h
        subst h1; subst h2r
        refine ⟨fun hr => by simp at hr, fun _ => ⟨rfl, hd3⟩, fun hr => by simp at hr⟩
      · simp at h

lemma solveLoop_flags (fuel : ℕ) (s sf : SState) (r : ExitReason)
    (hd : s.degenerate_solution = false) (hu : s.unbounded_feasible_region = false)
    (h : solveLoop fuel s = some (sf, r)) :
    (¬(sf.degenerate_solution = true ∧ sf.unbounded_feasible_region = true)) ∧
    (r = .degenerate → sf.degenerate_solution = true) ∧
    (r = .unbounded → sf.unbounded_feasible_region = true) ∧
    ((r = .optimal ∨ r = .crash) → sf.degenerate_solution = false ∧
        sf.unbounded_feasible_region = false) := by
  induction fuel generalizing s with
  | zero => simp [solveLoop] at h
  | succ n ih =>
    unfold solveLoop at h
    cases hit : solveIter s with
    | exit s2 r2 =>
      rw [hit] at h
      simp only [Option.some.injEq, Prod.mk.injEq] at h
      obtain ⟨h1, h2⟩ := h
      obtain ⟨e1, e2, e3⟩ := solveIter_exit_flags s s2 r2 hit
      subst h1; subst h2
      refine ⟨?_, ?_, ?_, ?_⟩
      · rintro ⟨hdt, hut⟩
        cases r2 with
        | degenerate => rw [(e1 rfl).2, hu] at hut; exact Bool.false_ne_true hut
        | unbounded => rw [(e2 rfl).2, hd] at hdt; exact Bool.false_ne_true hdt
        | optimal => rw [(e3 (Or.inl rfl)).1, hd] at hdt; exact Bool.false_ne_true hdt
        | crash => rw [(e3 (Or.inr rfl)).1, hd] at hdt; exact Bool.false_ne_true hdt
      · intro hr; exact (e1 hr).1
      · intro hr; exact (e2 hr).1
      · intro hr
        obtain ⟨p1, p2⟩ := e3 hr
        exact ⟨p1.trans hd, p2.trans hu⟩
    | cont s2 =>
      rw [hit] at h
      obtain ⟨pd, pu⟩ := solveIter_cont_flags s s2 hit
      exact ih s2 (pd.trans hd) (pu.trans hu) h

/-- C2: the claim says the loop terminates with the Degenerate
classification exactly when a zero-valued basic variable is observed at
two *consecutive* iteration boundaries, a second non-consecutive
occurrence not terminating the loop.  The code never resets
`is_potentially_degenerate`, so any second occurrence terminates: on
`Maximize: z = 2x1 + x2` with `x1 - x2 <= 0`, `x1 <= 2`, `x2 <= 2` the
zero observations happen at iterations 0 and 2 (trace
`[true, false, true]`, none at iteration 1), yet the run stops with the
Degenerate classification — contradicting the claim and the source's own
comments ("If a Basic variable is 0 at two consective iterations"). -/
theorem c2_nonconsecutive_zero_stops_degenerate :
    buildLPP "Maximize: z = 2x1 + x2" ["x1 - x2 <= 0", "x1 <= 2", "x2 <= 2"] = some degState0
    ∧ solveTrace 10 degState0 = ([true, false, true], some (degStateF, .degenerate))
    ∧ degStateF.degenerate_solution = true :=
  ⟨deg_build, by simp [solveTrace, deg_iter0, deg_iter1, deg_iter2], rfl⟩

/-- C8 (counterexample): on `Maximize: z = 0x1` subject to `-x1 <= 2` the
run first takes the alternate-optima branch (zero objective entry at the
non-basic `x1`, snapshotting both solutions) and then the ratio test
fails, so the loop exits with BOTH the alternate-optima classification
(flag set, both solutions populated) and the Unbounded classification —
two terminal classifications hold simultaneously, refuting the claim. -/
theorem c8_counterexample_two_classifications :
    buildLPP "Maximize: z = 0x1" ["-x1 <= 2"] = some altUnbState0
    ∧ solveLoop 3 altUnbState0 = some (altUnbStateF, .unbounded)
    ∧ altUnbStateF.alternative_optima_exist = true
    ∧ altUnbStateF.unbounded_feasible_region = true
    ∧ altUnbStateF.solution.all (fun pr => pr.2.isSome) = true
    ∧ altUnbStateF.alternative_solution.all (fun pr => pr.2.isSome) = true :=
  ⟨altUnb_build, by simp [solveLoop, altUnb_iter], rfl, rfl, by decide, by decide⟩

/-- C8 (amended): at loop exit the reasons Degenerate / Unbounded /
Optimal are pairwise exclusive — the `degenerate_solution` and
`unbounded_feasible_region` flags are each set only just before their own
break, so starting from cleared flags at most one of them is set, and a
zero-entering-variable (Optimal) exit leaves both cleared.  The
alternate-optima flag, however, is NOT exclusive with them (see the
counterexample, where it accompanies an Unbounded exit). -/
theorem c8_amended_flag_exclusivity (fuel : ℕ) (s sf : SState) (r : ExitReason)
    (hd : s.degenerate_solution = false) (hu : s.unbounded_feasible_region = false)
    (h : solveLoop fuel s = some (sf, r)) :
    (¬(sf.degenerate_solution = true ∧ sf.unbounded_feasible_region = true)) ∧
    (r = .degenerate → sf.degenerate_solution = true) ∧
    (r = .unbounded → sf.unbounded_feasible_region = true) ∧
    ((r = .optimal ∨ r = .crash) → sf.degenerate_solution = false ∧
        sf.unbounded_feasible_region = false) :=
  solveLoop_flags fuel s sf r hd hu h

theorem c8_amended_flag_exclusivity_witness :
    (¬(altUnbStateF.degenerate_solution = true ∧
        altUnbStateF.unbounded_feasible_region = true)) ∧
    (ExitReason.unbounded = ExitReason.degenerate → altUnbStateF.degenerate_solution = true) ∧
    (ExitReason.unbounded = ExitReason.unbounded → altUnbStateF.unbounded_feasible_region = true) ∧
    ((ExitReason.unbounded = ExitReason.optimal ∨ ExitReason.unbounded = ExitReason.crash) →
        altUnbStateF.degenerate_solution = false ∧
        altUnbStateF.unbounded_feasible_region = false) :=
  c8_amended_flag_exclusivity 3 altUnbState0 altUnbStateF .unbounded rfl rfl
    (by simp [solveLoop, altUnb_iter])

/-! ## General lemmas about the term scanner

These support the claims about constraint normalization: appending
`+ slack` or `- slack` to a left-hand side appends exactly one matched
pair to the scan result. -/

lemma takeWhile_append_stop (p : Char → Bool) (xs : List Char) (d : Char) (s : List Char)
    (hd : p d = false) : (xs ++ d :: s).takeWhile p = xs.takeWhile p := by
  induction xs with
  | nil => simp [List.takeWhile, hd]
  | cons c cs ih =>
    by_cases hc : p c
    · simp [List.takeWhile, hc, ih]
    · simp [List.takeWhile, hc]

lemma dropWhile_append_stop (p : Char → Bool) (xs : List Char) (d : Char) (s : List Char)
    (hd : p d = false) : (xs ++ d :: s).dropWhile p = xs.dropWhile p ++ d :: s := by
  induction xs with
  | nil => simp [List.dropWhile, hd]
  | cons c cs ih =>
    by_cases hc : p c
    · simp [List.dropWhile, hc, ih]
    · simp [List.dropWhile, hc]

lemma dropWhile_length_le (p : Char → Bool) (xs : List Char) :
    (xs.dropWhile p).length ≤ xs.length := by
  induction xs with
  | nil => simp
  | cons c cs ih =>
    by_cases hc : p c
    · simp only [List.dropWhile, hc]
      exact Nat.le_succ_of_le ih
    · simp [List.dropWhile, hc]

lemma dropWhile_length_lt (p : Char → Bool) (xs : List Char) (h : xs.takeWhile p ≠ []) :
    (xs.dropWhile p).length < xs.length := by
  cases xs with
  | nil => simp at h
  | cons c cs =>
    by_cases hc : p c
    · simp only [List.dropWhile, hc]
      exact Nat.lt_succ_of_le (dropWhile_length_le p cs)
    · simp [List.takeWhile, hc] at h

lemma matchTerm_rest_lt (cs : List Char) (pr : List Char × List Char) (rest : List Char)
    (h : matchTerm cs = some (pr, rest)) : rest.length < cs.length := by
  unfold matchTerm at h
  cases cs with
  | nil => simp at h
  | cons c cs0 =>
    dsimp only at h
    by_cases hsgn : (c = '+' || c = '-') = true
    · rw [if_pos hsgn] at h
      dsimp only at h
      by_cases hws : (cs0.dropWhile Char.isDigit).takeWhile isWordChar = []
      · rw [if_neg (by simpa using hws)] at h
        by_cases hds : cs0.takeWhile Char.isDigit = []
        · rw [if_neg (by simpa using hds)] at h
          simp at h
        · rw [if_pos (by simpa using hds)] at h
          simp only [Option.some.injEq, Prod.mk.injEq] at h
          obtain ⟨-, h2⟩ := h
          subst h2
          have h3 := dropWhile_length_lt Char.isDigit cs0 hds
          simp only [List.length_cons]
          omega
      · rw [if_pos (by simpa using hws)] at h
        simp only [Option.some.injEq, Prod.mk.injEq] at h
        obtain ⟨-, h2⟩ := h
        subst h2
        have h1 := dropWhile_length_le isWordChar (cs0.dropWhile Char.isDigit)
        have h3 := dropWhile_length_le Char.isDigit cs0
        simp only [List.length_cons]
        omega
    · rw [if_neg hsgn] at h
      dsimp only at h
      by_cases hws : ((c :: cs0).dropWhile Char.isDigit).takeWhile isWordChar = []
      · rw [if_neg (by simpa using hws)] at h
        by_cases hds : (c :: cs0).takeWhile Char.isDigit = []
        · rw [if_neg (by simpa using hds)] at h
          simp at h
        · rw [if_pos (by simpa using hds)] at h
          simp only [Option.some.injEq, Prod.mk.injEq] at h
          obtain ⟨-, h2⟩ := h
          subst h2
          exact dropWhile_length_lt Char.isDigit (c :: cs0) hds
      · rw [if_pos (by simpa using hws)] at h
        simp only [Option.some.injEq, Prod.mk.injEq] at h
        obtain ⟨-, h2⟩ := h
        subst h2
        have h1 := dropWhile_length_lt isWordChar ((c :: cs0).dropWhile Char.isDigit) hws
        have h3 := dropWhile_length_le Char.isDigit (c :: cs0)
        omega

lemma scanTermsAux_fuel (n : ℕ) : ∀ (cs : List Char) (f1 f2 : ℕ), cs.length ≤ n →
    cs.length < f1 → cs.length < f2 → scanTermsAux f1 cs = scanTermsAux f2 cs := by
  induction n with
  | zero =>
    intro cs f1 f2 hn h1 h2
    cases cs with
    | nil =>
      cases f1 with
      | zero => omega
      | succ a =>
        cases f2 with
        | zero => omega
        | succ b => rfl
    | cons c cs0 => simp at hn
  | succ n ih =>
    intro cs f1 f2 hn h1 h2
    cases cs with
    | nil =>
      cases f1 with
      | zero => omega
      | succ a =>
        cases f2 with
        | zero => omega
        | succ b => rfl
    | cons c cs0 =>
      cases f1 with
      | zero => omega
      | succ a =>
        cases f2 with
        | zero => omega
        | succ b =>
          simp only [scanTermsAux]
          simp only [List.length_cons] at hn h1 h2
          cases hm : matchTerm (c :: cs0) with
          | none =>
            have := ih cs0 a b (by omega) (by omega) (by omega)
            dsimp only
            rw [this]
          | some v =>
            obtain ⟨pr, rest⟩ := v
            have hlt := matchTerm_rest_lt (c :: cs0) pr rest hm
            simp only [List.length_cons] at hlt
            have := ih rest a b (by omega) (by omega) (by omega)
            dsimp only
            rw [this]

/-- One-step unfolding of `scanTerms`. -/
lemma scanTerms_cons (c : Char) (cs : List Char) :
    scanTerms (c :: cs) =
      match matchTerm (c :: cs) with
      | some (pr, rest) => (pr :: (scanTerms rest).1, (scanTerms rest).2)
      | none => ((scanTerms cs).1, true) := by
  unfold scanTerms
  show scanTermsAux (cs.length + 1 + 1) (c :: cs) = _
  simp only [scanTermsAux]
  cases hm : matchTerm (c :: cs) with
  | none => rfl
  | some v =>
    obtain ⟨pr, rest⟩ := v
    have hlt := matchTerm_rest_lt (c :: cs) pr rest hm
    simp only [List.length_cons] at hlt
    have := scanTermsAux_fuel rest.length rest (cs.length + 1) (rest.length + 1)
      (le_refl _) (by omega) (by omega)
    simp [this]

/-! ## Appending a slack/surplus term to a left-hand side -/

/-- Shape of the generated slack/surplus names: `s` followed by at least
one digit. -/
def slackShape (w : List Char) : Prop :=
  ∃ dch : List Char, w = 's' :: dch ∧ dch ≠ [] ∧ ∀ c ∈ dch, c.isDigit = true

lemma isWordChar_of_isDigit (c : Char) (h : c.isDigit = true) : isWordChar c = true := by
  simp [isWordChar, Char.isAlphanum, h]

lemma takeWhile_eq_self_of_all (p : Char → Bool) (l : List Char) (h : ∀ c ∈ l, p c = true) :
    l.takeWhile p = l := by
  induction l with
  | nil => rfl
  | cons c cs ih =>
    simp only [List.takeWhile, h c (List.mem_cons_self c cs)]
    simpa using ih (fun x hx => h x (List.mem_cons_of_mem c hx))

lemma dropWhile_eq_nil_of_all (p : Char → Bool) (l : List Char) (h : ∀ c ∈ l, p c = true) :
    l.dropWhile p = [] := by
  induction l with
  | nil => rfl
  | cons c cs ih =>
    simp only [List.dropWhile, h c (List.mem_cons_self c cs)]
    exact ih (fun x hx => h x (List.mem_cons_of_mem c hx))

lemma slackShape_all_word (w : List Char) (hw : slackShape w) :
    ∀ c ∈ w, isWordChar c = true := by
  obtain ⟨dch, h1, -, h3⟩ := hw
  subst h1
  intro c hc
  rcases List.mem_cons.mp hc with h | h
  · subst h; decide
  · exact isWordChar_of_isDigit c (h3 c h)

/-- On a lone `±slack` term the scanner matches the sign as group 1 and
the whole name as group 2. -/
lemma matchTerm_single (sgnc : Char) (w : List Char)
    (hs : sgnc = '+' ∨ sgnc = '-') (hw : slackShape w) :
    matchTerm (sgnc :: w) = some (([sgnc], w), []) := by
  have hall := slackShape_all_word w hw
  obtain ⟨dch, h1, hne, h3⟩ := hw
  have hsgn : (sgnc = '+' || sgnc = '-') = true := by
    rcases hs with h | h <;> simp [h]
  unfold matchTerm
  dsimp only
  rw [if_pos hsgn]
  have hds : w.takeWhile Char.isDigit = [] := by
    subst h1; simp +decide [List.takeWhile]
  have hds2 : w.dropWhile Char.isDigit = w := by
    subst h1; simp +decide [List.dropWhile]
  have hws : w.takeWhile isWordChar = w :=
    takeWhile_eq_self_of_all _ _ hall
  have hwd : w.dropWhile isWordChar = [] :=
    dropWhile_eq_nil_of_all _ _ hall
  rw [hds, hds2, hws, hwd]
  have hwne : w ≠ [] := by subst h1; simp
  rw [if_pos (by simpa using hwne)]
  simp

lemma scanTerms_single (sgnc : Char) (w : List Char)
    (hs : sgnc = '+' ∨ sgnc = '-') (hw : slackShape w) :
    scanTerms (sgnc :: w) = ([([sgnc], w)], false) := by
  rw [scanTerms_cons, matchTerm_single sgnc w hs hw]
  rfl

lemma matchTerm_append (c : Char) (cs0 : List Char) (d : Char) (s : List Char)
    (hd1 : d.isDigit = false) (hd2 : isWordChar d = false) :
    matchTerm ((c :: cs0) ++ d :: s) =
      (matchTerm (c :: cs0)).map (fun v => (v.1, v.2 ++ d :: s)) := by
  unfold matchTerm
  dsimp only [List.cons_append]
  by_cases hsgn : (c = '+' || c = '-') = true
  · rw [if_pos hsgn, if_pos hsgn]
    dsimp only
    rw [takeWhile_append_stop Char.isDigit cs0 d s hd1,
        dropWhile_append_stop Char.isDigit cs0 d s hd1,
        takeWhile_append_stop isWordChar (cs0.dropWhile Char.isDigit) d s hd2,
        dropWhile_append_stop isWordChar (cs0.dropWhile Char.isDigit) d s hd2]
    by_cases hws : (cs0.dropWhile Char.isDigit).takeWhile isWordChar = []
    · by_cases hds : cs0.takeWhile Char.isDigit = []
      · simp [hws, hds]
      · simp [hws, hds]
    · simp [hws]
  · rw [if_neg hsgn, if_neg hsgn]
    dsimp only
    have e1 := takeWhile_append_stop Char.isDigit (c :: cs0) d s hd1
    have e2 := dropWhile_append_stop Char.isDigit (c :: cs0) d s hd1
    rw [List.cons_append] at e1 e2
    rw [e1, e2,
        takeWhile_append_stop isWordChar ((c :: cs0).dropWhile Char.isDigit) d s hd2,
        dropWhile_append_stop isWordChar ((c :: cs0).dropWhile Char.isDigit) d s hd2]
    by_cases hws : ((c :: cs0).dropWhile Char.isDigit).takeWhile isWordChar = []
    · by_cases hds : (c :: cs0).takeWhile Char.isDigit = []
      · simp [hws, hds]
      · simp [hws, hds]
    · simp [hws]

/-- Appending a `±slack` term to any character sequence appends exactly
one matched pair to the scan, and does not affect the skipped-flag. -/
lemma scanTerms_append_term (sgnc : Char) (w : List Char)
    (hs : sgnc = '+' ∨ sgnc = '-') (hw : slackShape w) (n : ℕ) :
    ∀ cs : List Char, cs.length ≤ n →
      scanTerms (cs ++ sgnc :: w) =
        ((scanTerms cs).1 ++ [([sgnc], w)], (scanTerms cs).2) := by
  have hsd : sgnc.isDigit = false := by rcases hs with h | h <;> subst h <;> decide
  have hsw : isWordChar sgnc = false := by rcases hs with h | h <;> subst h <;> decide
  induction n with
  | zero =>
    intro cs hlen
    have hnil : cs = [] := List.length_eq_zero.mp (Nat.le_zero.mp hlen)
    subst hnil
    simpa [scanTerms] using scanTerms_single sgnc w hs hw
  | succ n ih =>
    intro cs hlen
    cases cs with
    | nil => simpa [scanTerms] using scanTerms_single sgnc w hs hw
    | cons c cs0 =>
      rw [List.cons_append, scanTerms_cons]
      have hma := matchTerm_append c cs0 sgnc w hsd hsw
      rw [List.cons_append] at hma
      rw [hma]
      cases hm : matchTerm (c :: cs0) with
      | none =>
        rw [Option.map_none']
        dsimp only
        rw [ih cs0 (by simp at hlen; omega)]
        rw [scanTerms_cons, hm]
      | some v =>
        obtain ⟨pr, rest⟩ := v
        rw [Option.map_some']
        dsimp only
        have hlt := matchTerm_rest_lt (c :: cs0) pr rest hm
        rw [ih rest (by simp at hlt hlen; omega)]
        rw [scanTerms_cons, hm]
        simp

/-! ## The parsed coefficient of an injected slack/surplus variable -/

lemma digit_bounds (lc : Char) (h : lc.isDigit = true) : 48 ≤ lc.toNat ∧ lc.toNat ≤ 57 := by
  unfold Char.isDigit at h
  simp at h
  obtain ⟨h1, h2⟩ := h
  unfold Char.toNat
  rw [UInt32.le_def] at h1 h2
  rw [BitVec.le_def] at h1 h2
  exact ⟨h1, h2⟩

lemma slack_name_shape (lc : Char) (h : lc.isDigit = true) :
    slackShape (slack_name lc).data := by
  obtain ⟨h1, h2⟩ := digit_bounds lc h
  unfold slack_name
  set n := lc.toNat - 48 + 1 with hn
  have hlo : 1 ≤ n := by omega
  have hhi : n ≤ 10 := by omega
  clear_value n
  interval_cases n
  all_goals exact ⟨_, rfl, by decide, by decide⟩

lemma slackShape_no_space (w : List Char) (hw : slackShape w) : ∀ c ∈ w, (c ≠ ' ') := by
  intro c hc heq
  have := slackShape_all_word w hw c hc
  rw [heq] at this
  simp [isWordChar, Char.isAlphanum] at this

lemma parse_equation_lengths (s : String) :
    (parse_equation s).1.length = (parse_equation s).2.length := by
  simp [parse_equation]

/-- Appending `± slack` (with the space the source inserts) to a
left-hand side appends one coefficient/variable pair to the parse. -/
lemma parse_equation_append (lcs : List Char) (sgnc : Char) (w : List Char)
    (hs : sgnc = '+' ∨ sgnc = '-') (hw : slackShape w) :
    parse_equation (String.mk (lcs ++ sgnc :: ' ' :: w)) =
      ((parse_equation (String.mk lcs)).1 ++ [if sgnc = '-' then -1 else 1],
       (parse_equation (String.mk lcs)).2 ++ [String.mk w]) := by
  unfold parse_equation
  dsimp only
  rw [List.filter_append]
  have hsuffix : (sgnc :: ' ' :: w).filter (fun c => c ≠ ' ') = sgnc :: w := by
    have h1 : (sgnc ≠ ' ') := by rcases hs with h | h <;> subst h <;> decide
    have h2 := slackShape_no_space w hw
    have hw2 : w.filter (fun c => c ≠ ' ') = w :=
      List.filter_eq_self.mpr (fun c hc => by simpa using h2 c hc)
    simp [List.filter_cons, h1, hw2]
    intro a ha
    exact h2 a ha
  rw [hsuffix]
  rw [scanTerms_append_term sgnc w hs hw (lcs.filter (fun c => c ≠ ' ')).length
    (lcs.filter (fun c => c ≠ ' ')) le_rfl]
  rcases hs with h | h <;> subst h <;> simp [coeffOfGroup]

/-- The coefficient stored for the injected variable: position
`vars.length` (the appended last column) of the parsed vector, before any
sign flip.  It is `+1` for an appended `+ slack` term and `-1` for an
appended `- slack` term, in both branches of `Equation.parse`. -/
lemma parseA_append (lcs : List Char) (sgnc : Char) (w : List Char) (vars : List String)
    (hs : sgnc = '+' ∨ sgnc = '-') (hw : slackShape w) :
    (Equation.parseA (String.mk (lcs ++ sgnc :: ' ' :: w)) (vars ++ [String.mk w])).length
        = vars.length + 1 ∧
    (Equation.parseA (String.mk (lcs ++ sgnc :: ' ' :: w)) (vars ++ [String.mk w])).getD
        vars.length 0 = (if sgnc = '-' then -1 else 1) := by
  unfold Equation.parseA
  rw [parse_equation_append lcs sgnc w hs hw]
  dsimp only
  set c0 := (parse_equation (String.mk lcs)).1 with hc0
  set X0 := (parse_equation (String.mk lcs)).2 with hX0
  have hlen : c0.length = X0.length := parse_equation_lengths (String.mk lcs)
  by_cases hne : X0.length + 1 ≠ vars.length + 1
  · rw [if_pos (by simpa using hne)]
    refine ⟨by simp, ?_⟩
    rw [List.map_append, List.getD_eq_getElem?_getD,
      List.getElem?_append_right (by simp : (List.map _ vars).length ≤ vars.length)]
    simp only [List.length_map, Nat.sub_self, List.map_cons, List.map_nil,
      List.getElem?_cons_zero, Option.getD_some]
    have hzip : (X0 ++ [String.mk w]).zip (c0 ++ [if sgnc = '-' then (-1 : ℤ) else 1])
        = X0.zip c0 ++ [(String.mk w, if sgnc = '-' then (-1 : ℤ) else 1)] :=
      List.zip_append hlen.symm
    rw [hzip, List.reverse_append]
    simp only [List.reverse_cons, List.reverse_nil, List.nil_append, List.cons_append,
      List.find?_cons]
    rcases hs with h | h <;> subst h <;> simp
  · rw [if_neg (by simpa using hne)]
    have hXv : X0.length = vars.length := by omega
    refine ⟨by rw [List.length_map, List.length_append]; simp [hlen, hXv], ?_⟩
    rw [List.map_append, List.getD_eq_getElem?_getD,
      List.getElem?_append_right
        (by rw [List.length_map]; omega :
          (List.map (fun (z : ℤ) => (z : ℚ)) c0).length ≤ vars.length)]
    have hidx : vars.length - (List.map (fun (z : ℤ) => (z : ℚ)) c0).length = 0 := by
      rw [List.length_map]; omega
    rw [hidx]
    rcases hs with h | h <;> subst h <;> simp

/-! ## Structure of parsed `<=` and negative-RHS `>=` constraints -/

lemma Constraint_parse_le (cstr : String) (vars slacks : List String) (out : ConstraintOut)
    (lhs rhsCs : List Char)
    (hsplit : splitRel cstr.data = (lhs, [("<=", rhsCs)]))
    (h : Constraint.parse cstr vars slacks = some out) :
    ∃ lv lc rhsv, vars.getLast? = some lv ∧ lv.data.getLast? = some lc ∧
      lc.isDigit = true ∧ parseFloatQ rhsCs = some rhsv ∧
      out = ⟨vars ++ [slack_name lc], slacks ++ [slack_name lc],
        Equation.make (String.mk (lhs ++ '+' :: ' ' :: (slack_name lc).data)) rhsv
          (vars ++ [slack_name lc]) false⟩ := by
  unfold Constraint.parse at h
  rw [hsplit] at h
  dsimp only at h
  rw [if_pos (by decide : ("<=" : String) ≠ "==")] at h
  cases hlv : vars.getLast? with
  | none => rw [hlv] at h; simp at h
  | some lv =>
    rw [hlv] at h
    dsimp only at h
    cases hlc : lv.data.getLast? with
    | none => rw [hlc] at h; simp at h
    | some lc =>
      rw [hlc] at h
      dsimp only at h
      by_cases hdig : lc.isDigit = true
      · rw [if_pos hdig] at h
        rw [if_neg (by decide : ¬("<=" : String) = ">=")] at h
        rw [if_pos (by decide : ("<=" : String) = "<=")] at h
        cases hq : parseFloatQ rhsCs with
        | none => rw [hq] at h; simp at h
        | some rhsv =>
          rw [hq] at h
          simp only [Option.some.injEq] at h
          refine ⟨lv, lc, rhsv, rfl, hlc, hdig, rfl, ?_⟩
          rw [← h]
          rfl
      · rw [if_neg hdig] at h
        simp at h

lemma Constraint_parse_ge_neg (cstr : String) (vars slacks : List String) (out : ConstraintOut)
    (lhs rhsCs : List Char) (rhsv : ℚ)
    (hsplit : splitRel cstr.data = (lhs, [(">=", rhsCs)]))
    (hq : parseFloatQ rhsCs = some rhsv) (hneg : rhsv < 0)
    (h : Constraint.parse cstr vars slacks = some out) :
    ∃ lv lc, vars.getLast? = some lv ∧ lv.data.getLast? = some lc ∧
      lc.isDigit = true ∧
      out = ⟨vars ++ [slack_name lc], slacks ++ [slack_name lc],
        Equation.make (String.mk (lhs ++ '-' :: ' ' :: (slack_name lc).data)) rhsv
          (vars ++ [slack_name lc]) true⟩ := by
  unfold Constraint.parse at h
  rw [hsplit] at h
  dsimp only at h
  rw [if_pos (by decide : (">=" : String) ≠ "==")] at h
  cases hlv : vars.getLast? with
  | none => rw [hlv] at h; simp at h
  | some lv =>
    rw [hlv] at h
    dsimp only at h
    cases hlc : lv.data.getLast? with
    | none => rw [hlc] at h; simp at h
    | some lc =>
      rw [hlc] at h
      dsimp only at h
      by_cases hdig : lc.isDigit = true
      · rw [if_pos hdig] at h
        rw [if_pos (by decide : (">=" : String) = ">=")] at h
        rw [hq] at h
        dsimp only at h
        rw [if_pos hneg] at h
        simp only [Option.some.injEq] at h
        refine ⟨lv, lc, rfl, hlc, hdig, ?_⟩
        rw [← h]
        rfl
      · rw [if_neg hdig] at h
        simp at h

/-- C3: parsing the equality constraint `x1 + x2 = 4` DOES inject a fresh
variable.  The source guard `sign_type != "=="` compares against a string
the relation split can never produce (only `>=`, `=`, `<=` are possible),
so it is always true and the fresh name `s3` is appended to both the
global variable order and the slack registry.  This refutes the claim
that an `=` constraint leaves both registries unchanged; the guard is
plainly a slip for `sign_type != "="`, whose intent the spec records. -/
theorem c3_equality_injects_fresh_variable :
    Constraint.parse "x1 + x2 = 4" ["x1", "x2"] [] =
      some ⟨["x1", "x2", "s3"], ["s3"], ⟨4, [1, 1, 0]⟩⟩ ∧
    (["x1", "x2", "s3"] : List String) ≠ ["x1", "x2"] ∧
    (["s3"] : List String) ≠ [] := by
  refine ⟨?_, by decide, by decide⟩
  simp +decide [Constraint.parse, splitRel, Equation.make, Equation.parseA, parse_equation,
    parseFloatQ, trimSpaces, coeffOfGroup, intOfChars, natOfDigits, slack_name]

/-- C4 (counterexample): normalizing `x1 >= -4` (a `>=` constraint with
negative RHS) injects the surplus variable `s2` via the term `- s2` and
then multiplies the whole row by -1, so the STORED equation is
`A = [-1, 1], b = 4`: the stored coefficient of `s2` is `+1`, not `-1` as
the claim states (the claim contradicts its own parenthetical, since the
row including the surplus coefficient has been negated). -/
theorem c4_counterexample_stored_surplus_coefficient :
    Constraint.parse "x1 >= -4" ["x1"] [] =
      some ⟨["x1", "s2"], ["s2"], ⟨4, [-1, 1]⟩⟩ ∧
    (Equation.mk 4 [-1, 1]).A.getD 1 0 = 1 ∧
    ¬((Equation.mk 4 [-1, 1]).A.getD 1 0 = -1) ∧
    0 ≤ (Equation.mk 4 [-1, 1]).b := by
  refine ⟨?_, by norm_num, by norm_num, by norm_num⟩
  simp +decide [Constraint.parse, splitRel, Equation.make, Equation.parseA, parse_equation,
    parseFloatQ, trimSpaces, coeffOfGroup, intOfChars, natOfDigits, slack_name]

/-- C4 (amended): for every `<=` constraint the stored slack coefficient
(the last column of the normalized equality) is exactly +1; for every
`>=` constraint with negative RHS the surplus variable is injected with
coefficient -1 (`Equation.parseA` of the mutated LHS yields -1 at the
surplus column) and the whole row, RHS included, is then multiplied by
-1, so the STORED surplus coefficient is +1 and the stored RHS is
non-negative. -/
theorem c4_amended_normalization_coefficients
    (cstr : String) (vars slacks : List String) (out : ConstraintOut)
    (lhs : List Char) (rel : String) (rhsCs : List Char)
    (hsplit : splitRel cstr.data = (lhs, [(rel, rhsCs)]))
    (hparse : Constraint.parse cstr vars slacks = some out) :
    (rel = "<=" → out.equation.A.getD (out.vars.length - 1) 0 = 1) ∧
    (rel = ">=" → ∀ rhsv, parseFloatQ rhsCs = some rhsv → rhsv < 0 →
      out.equation.b = -rhsv ∧ 0 ≤ out.equation.b ∧
      out.equation.A.getD (out.vars.length - 1) 0 = 1 ∧
      ∃ lv lc, vars.getLast? = some lv ∧ lv.data.getLast? = some lc ∧
        (Equation.parseA (String.mk (lhs ++ '-' :: ' ' :: (slack_name lc).data))
          out.vars).getD (out.vars.length - 1) 0 = -1) := by
  constructor
  · intro hrel
    subst hrel
    obtain ⟨lv, lc, rhsv, hlv, hlc, hdig, hq, hout⟩ :=
      Constraint_parse_le cstr vars slacks out lhs rhsCs hsplit hparse
    subst hout
    dsimp only
    have hshape := slack_name_shape lc hdig
    have heta : String.mk (slack_name lc).data = slack_name lc := rfl
    have hp := parseA_append lhs '+' (slack_name lc).data vars (Or.inl rfl) hshape
    rw [heta] at hp
    unfold Equation.make
    rw [if_neg (by simp)]
    dsimp only
    simp only [List.length_append, List.length_singleton, Nat.add_sub_cancel]
    simpa using hp.2
  · intro hrel rhsv hq hneg
    subst hrel
    obtain ⟨lv, lc, hlv, hlc, hdig, hout⟩ :=
      Constraint_parse_ge_neg cstr vars slacks out lhs rhsCs rhsv hsplit hq hneg hparse
    subst hout
    dsimp only
    have hshape := slack_name_shape lc hdig
    have heta : String.mk (slack_name lc).data = slack_name lc := rfl
    have hp := parseA_append lhs '-' (slack_name lc).data vars (Or.inr rfl) hshape
    rw [heta] at hp
    unfold Equation.make
    rw [if_pos rfl]
    dsimp only
    simp only [List.length_append, List.length_singleton, Nat.add_sub_cancel]
    refine ⟨trivial, by linarith, ?_, lv, lc, hlv, hlc, ?_⟩
    · rw [List.getD_eq_getElem?_getD, List.getElem?_map]
      have hlenA := hp.1
      have hget := hp.2
      rw [List.getD_eq_getElem?_getD] at hget
      cases hx : (Equation.parseA (String.mk (lhs ++ '-' :: ' ' :: (slack_name lc).data))
          (vars ++ [slack_name lc]))[vars.length]? with
      | none =>
        exfalso
        have := List.getElem?_eq_none_iff.mp hx
        omega
      | some q =>
        rw [hx] at hget
        simp only [Option.getD_some] at hget
        simp only [hx, Option.map_some', Option.getD_some]
        rw [hget]
        norm_num
    · simpa using hp.2

theorem c4_amended_normalization_coefficients_witness :
    (("<=" : String) = "<=" →
      (ConstraintOut.mk ["x1", "s2"] ["s2"] ⟨4, [1, 1]⟩).equation.A.getD
        ((ConstraintOut.mk ["x1", "s2"] ["s2"] ⟨4, [1, 1]⟩).vars.length - 1) 0 = 1) ∧
    (("<=" : String) = ">=" → ∀ rhsv, parseFloatQ " 4".data = some rhsv → rhsv < 0 →
      (ConstraintOut.mk ["x1", "s2"] ["s2"] ⟨4, [1, 1]⟩).equation.b = -rhsv ∧
      0 ≤ (ConstraintOut.mk ["x1", "s2"] ["s2"] ⟨4, [1, 1]⟩).equation.b ∧
      (ConstraintOut.mk ["x1", "s2"] ["s2"] ⟨4, [1, 1]⟩).equation.A.getD
        ((ConstraintOut.mk ["x1", "s2"] ["s2"] ⟨4, [1, 1]⟩).vars.length - 1) 0 = 1 ∧
      ∃ lv lc, (["x1"] : List String).getLast? = some lv ∧ lv.data.getLast? = some lc ∧
        (Equation.parseA (String.mk ("x1 ".data ++ '-' :: ' ' :: (slack_name lc).data))
          (ConstraintOut.mk ["x1", "s2"] ["s2"] ⟨4, [1, 1]⟩).vars).getD
          ((ConstraintOut.mk ["x1", "s2"] ["s2"] ⟨4, [1, 1]⟩).vars.length - 1) 0 = -1) :=
  c4_amended_normalization_coefficients "x1 <= 4" ["x1"] [] ⟨["x1", "s2"], ["s2"], ⟨4, [1, 1]⟩⟩
    "x1 ".data "<=" " 4".data (by decide)
    (by simp +decide [Constraint.parse, splitRel, Equation.make, Equation.parseA,
      parse_equation, parseFloatQ, trimSpaces, coeffOfGroup, intOfChars, natOfDigits,
      slack_name])

/-! ## The ratio test: specification comparison and characterization -/

/-- Modelled from the spec (§4.4 step 3): "for every row, compute
RHS / pivot-column-value only where the pivot-column value is strictly
positive (undefined/excluded otherwise).  Pick the row with the smallest
strictly-positive ratio; ties broken by first-encountered row order.  If
no row has a strictly positive ratio, terminate in state `Unbounded`." -/
def getPivotRow_spec (t : List (List ℚ)) (cidx : ℕ) (basic : List String) : PivotRowRes :=
  let masked := (t.drop 1).map (fun r =>
    let p := r.getD cidx 0
    if 0 < p then maskPos (some (r.getD (r.length - 1) 0 / p)) else none)
  if masked = [] then .err
  else
    match masked.foldl minInf none with
    | none => .noPos
    | some m =>
      if m ≤ 0 then .noPos
      else
        let i := idxOf (some m) masked
        if i < basic.length then .found (i + 1) (basic.getD i "") else .err

/-- Row `i` (0-based among the constraint rows) admits a ratio in the
source's sense: non-zero pivot entry and strictly positive quotient. -/
def posRatioRow (t : List (List ℚ)) (cidx i : ℕ) : Prop :=
  ((t.drop 1).getD i []).getD cidx 0 ≠ 0 ∧
    0 < ((t.drop 1).getD i []).getD (((t.drop 1).getD i []).length - 1) 0 /
      ((t.drop 1).getD i []).getD cidx 0

instance (t : List (List ℚ)) (cidx i : ℕ) : Decidable (posRatioRow t cidx i) := by
  unfold posRatioRow; infer_instance

/-- The ratio of row `i` as the source computes it. -/
def rowRatio (t : List (List ℚ)) (cidx i : ℕ) : ℚ :=
  ((t.drop 1).getD i []).getD (((t.drop 1).getD i []).length - 1) 0 /
    ((t.drop 1).getD i []).getD cidx 0

lemma minInf_eq_none (a b : Option ℚ) : minInf a b = none ↔ a = none ∧ b = none := by
  cases a <;> cases b <;> simp [minInf]

lemma foldl_minInf_none (l : List (Option ℚ)) : ∀ acc : Option ℚ,
    (l.foldl minInf acc = none ↔ acc = none ∧ ∀ x ∈ l, x = none) := by
  induction l with
  | nil => intro acc; simp
  | cons x xs ih =>
    intro acc
    rw [List.foldl_cons, ih, minInf_eq_none]
    constructor
    · rintro ⟨⟨h1, h2⟩, h3⟩
      refine ⟨h1, fun y hy => ?_⟩
      rcases List.mem_cons.mp hy with h | h
      · rw [h]; exact h2
      · exact h3 y h
    · rintro ⟨h1, h2⟩
      exact ⟨⟨h1, h2 x (List.mem_cons_self x xs)⟩,
        fun y hy => h2 y (List.mem_cons_of_mem x hy)⟩

lemma foldl_minInf_some (l : List (Option ℚ)) : ∀ (acc : Option ℚ) (m : ℚ),
    l.foldl minInf acc = some m →
      (acc = some m ∨ some m ∈ l) ∧ (∀ q : ℚ, some q ∈ l → m ≤ q) ∧
      (∀ q : ℚ, acc = some q → m ≤ q) := by
  induction l with
  | nil =>
    intro acc m hm
    have hm2 : acc = some m := hm
    refine ⟨Or.inl hm2, by simp, fun q hq => ?_⟩
    rw [hm2] at hq
    exact le_of_eq (Option.some.inj hq)
  | cons x xs ih =>
    intro acc m hm
    rw [List.foldl_cons] at hm
    obtain ⟨hmem, hle, hacc⟩ := ih (minInf acc x) m hm
    refine ⟨?_, ?_, ?_⟩
    · rcases hmem with h | h
      · cases acc with
        | none =>
          cases x with
          | none => simp [minInf] at h
          | some q =>
            simp only [minInf] at h
            right
            rw [← h]
            exact List.mem_cons_self _ _
        | some a =>
          cases x with
          | none =>
            simp only [minInf] at h
            left
            exact h
          | some b =>
            simp only [minInf] at h
            have hm2 : min a b = m := Option.some.inj h
            rcases le_total a b with h2 | h2
            · left
              rw [← hm2, min_eq_left h2]
            · right
              rw [← hm2, min_eq_right h2]
              exact List.mem_cons_self _ _
      · right
        exact List.mem_cons_of_mem x h
    · intro q hq
      rcases List.mem_cons.mp hq with h | h
      · cases acc with
        | none =>
          apply hacc q
          rw [← h]
          rfl
        | some a =>
          have := hacc (min a q) (by rw [← h]; rfl)
          exact le_trans this (min_le_right a q)
      · exact hle q h
    · intro q hq
      cases x with
      | none =>
        apply hacc q
        rw [hq]
        rfl
      | some b =>
        have := hacc (min q b) (by rw [hq]; rfl)
        exact le_trans this (min_le_left q b)

lemma idxOf_lt_length {α : Type} [DecidableEq α] (a : α) (l : List α) (h : a ∈ l) :
    idxOf a l < l.length := by
  induction l with
  | nil => simp at h
  | cons x xs ih =>
    by_cases hx : x = a
    · simp [idxOf, hx]
    · rcases List.mem_cons.mp h with h2 | h2
      · exact absurd h2.symm hx
      · simp only [idxOf, hx, if_false, List.length_cons]
        exact Nat.succ_lt_succ (ih h2)

lemma getD_idxOf {α : Type} [DecidableEq α] (a : α) (l : List α) (h : a ∈ l) (d : α) :
    l.getD (idxOf a l) d = a := by
  induction l with
  | nil => simp at h
  | cons x xs ih =>
    by_cases hx : x = a
    · simp [idxOf, hx]
    · rcases List.mem_cons.mp h with h2 | h2
      · exact absurd h2.symm hx
      · simp only [idxOf, hx, if_false]
        simpa using ih h2

lemma getD_ne_of_lt_idxOf {α : Type} [DecidableEq α] (a : α) (l : List α) (j : ℕ)
    (hj : j < idxOf a l) (d : α) : l.getD j d ≠ a := by
  induction l generalizing j with
  | nil => simp [idxOf] at hj
  | cons x xs ih =>
    by_cases hx : x = a
    · simp [idxOf, hx] at hj
    · cases j with
      | zero => simpa using hx
      | succ j2 =>
        simp only [idxOf, hx, if_false] at hj
        simpa using ih j2 (by omega)

lemma getD_mem {α : Type} (l : List α) (i : ℕ) (d : α) (h : i < l.length) :
    l.getD i d ∈ l := by
  induction l generalizing i with
  | nil => simp at h
  | cons x xs ih =>
    cases i with
    | zero => simp
    | succ j => simpa using Or.inr (ih j (by simpa using h))

lemma getD_map_of_lt {α β : Type} (l : List α) (g : α → β) (i : ℕ) (h : i < l.length)
    (d : α) (d2 : β) : (l.map g).getD i d2 = g (l.getD i d) := by
  rw [List.getD_eq_getElem?_getD, List.getElem?_map, List.getElem?_eq_getElem h]
  rw [List.getD_eq_getElem?_getD, List.getElem?_eq_getElem h]
  rfl

lemma masked_getD (t : List (List ℚ)) (cidx i : ℕ) (h : i < (t.drop 1).length) :
    ((ratioList t cidx).map maskPos).getD i none =
      if posRatioRow t cidx i then some (rowRatio t cidx i) else none := by
  have h2 : i < (ratioList t cidx).length := by
    unfold ratioList
    simpa using h
  rw [getD_map_of_lt (ratioList t cidx) maskPos i h2 none none]
  unfold ratioList
  rw [getD_map_of_lt (t.drop 1) _ i h [] none]
  unfold posRatioRow rowRatio
  set r := (t.drop 1).getD i [] with hr
  dsimp only
  by_cases hp : r.getD cidx 0 = 0
  · rw [if_pos hp, if_neg (fun hcon => hcon.1 hp)]
    rfl
  · rw [if_neg hp]
    by_cases hq : 0 < r.getD (r.length - 1) 0 / r.getD cidx 0
    · rw [if_pos (⟨hp, hq⟩ : _ ∧ _)]
      simp only [maskPos]
      rw [if_pos hq]
    · rw [if_neg (fun hcon => hq hcon.2)]
      simp only [maskPos]
      rw [if_neg hq]

lemma mem_getD_exists {α : Type} (l : List α) (x : α) (h : x ∈ l) (d : α) :
    ∃ i, i < l.length ∧ l.getD i d = x := by
  induction l with
  | nil => simp at h
  | cons y ys ih =>
    rcases List.mem_cons.mp h with h2 | h2
    · exact ⟨0, by simp, by simp [h2.symm]⟩
    · obtain ⟨i, hi, hg⟩ := ih h2
      exact ⟨i + 1, by simpa using hi, by simpa using hg⟩

/-- C1 (counterexample): on the tableau `[[1,-1,0,0],[0,-1,1,-2]]` with
pivot column 1 the single constraint row has pivot-column value -1 and
RHS -2.  The source computes the ratio wherever the pivot-column value is
non-zero, so it finds (-2)/(-1) = 2 > 0 and selects that row as leaving;
the spec-modelled selection, which computes ratios only where the
pivot-column value is strictly positive, finds no admissible row and
reports `NoPositiveRatio` (Unbounded).  The two selections disagree. -/
theorem c1_counterexample_negative_pivot_row_selected :
    getPivotRow [[1, -1, 0, 0], [0, -1, 1, -2]] 1 ["s2"] = .found 1 "s2" ∧
    getPivotRow_spec [[1, -1, 0, 0], [0, -1, 1, -2]] 1 ["s2"] = .noPos ∧
    (PivotRowRes.found 1 "s2" ≠ .noPos) := by
  refine ⟨?_, ?_, by decide⟩
  · simp +decide [getPivotRow, ratioList, maskPos, minInf, idxOf]
  · simp +decide [getPivotRow_spec, maskPos, minInf, idxOf]

/-- C1 (amended): the source's leaving-variable selection computes
RHS / pivot-column-value for every row whose pivot-column value is
non-zero (negative included).  It picks the first row attaining the
smallest strictly-positive ratio — which can be a row with negative
pivot-column value and negative RHS — and raises `NoPositiveRatioError`
(whereupon `solve` sets the unbounded flag and stops, instead of
crashing) exactly when no row has a strictly positive ratio. -/
theorem c1_amended_ratio_test_characterization (t : List (List ℚ)) (cidx : ℕ)
    (basic : List String) (hrows : t.drop 1 ≠ []) :
    (getPivotRow t cidx basic = .noPos ↔
      ∀ i < (t.drop 1).length, ¬ posRatioRow t cidx i) ∧
    (∀ r nm, getPivotRow t cidx basic = .found r nm →
      ∃ i, r = i + 1 ∧ i < (t.drop 1).length ∧ i < basic.length ∧
        nm = basic.getD i "" ∧ posRatioRow t cidx i ∧
        (∀ j < (t.drop 1).length, posRatioRow t cidx j →
          rowRatio t cidx i ≤ rowRatio t cidx j) ∧
        (∀ j < i, posRatioRow t cidx j → rowRatio t cidx i < rowRatio t cidx j)) ∧
    (∀ (s s2 : SState) (cidx2 : ℕ),
      ¬((displayStep s (s.X.filter (fun v => ¬ v ∈ s.basic_variables))).2 = true ∧
        (displayStep s (s.X.filter (fun v => ¬ v ∈ s.basic_variables))).1.is_potentially_degenerate = true) →
      enterStep (postDisplay s (s.X.filter (fun v => ¬ v ∈ s.basic_variables)))
        (s.X.filter (fun v => ¬ v ∈ s.basic_variables)) = (s2, .proceed cidx2) →
      getPivotRow s2.tableau cidx2 s2.basic_variables = .noPos →
      solveIter s = .exit { s2 with unbounded_feasible_region := true } .unbounded) := by
  have hmlen : ((ratioList t cidx).map maskPos).length = (t.drop 1).length := by
    simp [ratioList]
  have hmne : (ratioList t cidx).map maskPos ≠ [] := by
    intro hc
    apply hrows
    have := congrArg List.length hc
    rw [hmlen] at this
    exact List.length_eq_zero.mp this
  refine ⟨?_, ?_, ?_⟩
  · unfold getPivotRow
    rw [if_neg hmne]
    constructor
    · intro hres i hi hpos
      rcases hfold : ((ratioList t cidx).map maskPos).foldl minInf none with - | m
      · have hall := (foldl_minInf_none _ none).mp hfold
        have := hall.2 (((ratioList t cidx).map maskPos).getD i none)
          (getD_mem _ i none (by rwa [hmlen]))
        rw [masked_getD t cidx i hi, if_pos hpos] at this
        exact Option.noConfusion this
      · rw [hfold] at hres
        obtain ⟨hmem, hle, -⟩ := foldl_minInf_some _ none m hfold
        rcases hmem with h | h
        · exact Option.noConfusion h
        · obtain ⟨j, hj, hgj⟩ := mem_getD_exists _ _ h none
          rw [hmlen] at hj
          rw [masked_getD t cidx j hj] at hgj
          by_cases hpj : posRatioRow t cidx j
          · rw [if_pos hpj] at hgj
            have hmpos : 0 < m := by
              have h2 : 0 < rowRatio t cidx j := hpj.2
              rw [Option.some.inj hgj] at h2
              exact h2
            dsimp only at hres
            rw [if_neg (by linarith)] at hres
            split at hres <;> exact PivotRowRes.noConfusion hres
          · rw [if_neg hpj] at hgj
            exact Option.noConfusion hgj
    · intro hall
      have hnone : ((ratioList t cidx).map maskPos).foldl minInf none = none := by
        rw [foldl_minInf_none]
        refine ⟨rfl, fun x hx => ?_⟩
        obtain ⟨j, hj, hgj⟩ := mem_getD_exists _ _ hx none
        rw [hmlen] at hj
        rw [masked_getD t cidx j hj, if_neg (hall j hj)] at hgj
        exact hgj.symm
      rw [hnone]
  · intro r nm hres
    unfold getPivotRow at hres
    rw [if_neg hmne] at hres
    rcases hfold : ((ratioList t cidx).map maskPos).foldl minInf none with - | m
    · rw [hfold] at hres
      exact PivotRowRes.noConfusion hres
    · rw [hfold] at hres
      obtain ⟨hmem, hle, -⟩ := foldl_minInf_some _ none m hfold
      rcases hmem with h | h
      · exact Option.noConfusion h
      · have hmpos : 0 < m := by
          obtain ⟨j, hj, hgj⟩ := mem_getD_exists _ _ h none
          rw [hmlen] at hj
          rw [masked_getD t cidx j hj] at hgj
          by_cases hpj : posRatioRow t cidx j
          · rw [if_pos hpj] at hgj
            have h2 : 0 < rowRatio t cidx j := hpj.2
            rw [Option.some.inj hgj] at h2
            exact h2
          · rw [if_neg hpj] at hgj
            exact absurd hgj.symm (Option.noConfusion)
        dsimp only at hres
        rw [if_neg (by linarith)] at hres
        set i := idxOf (some m) ((ratioList t cidx).map maskPos) with hidef
        have hilt : i < (t.drop 1).length := by
          rw [← hmlen]
          exact idxOf_lt_length _ _ h
        split at hres
        · rename_i hib
          simp only [PivotRowRes.found.injEq] at hres
          obtain ⟨hr, hnm⟩ := hres
          have hgi : ((ratioList t cidx).map maskPos).getD i none = some m :=
            getD_idxOf _ _ h none
          rw [masked_getD t cidx i hilt] at hgi
          by_cases hpi : posRatioRow t cidx i
          · rw [if_pos hpi] at hgi
            have hmi : rowRatio t cidx i = m := Option.some.inj hgi
            refine ⟨i, hr.symm, hilt, hib, hnm.symm, hpi, ?_, ?_⟩
            · intro j hj hpj
              have : ((ratioList t cidx).map maskPos).getD j none =
                  some (rowRatio t cidx j) := by
                rw [masked_getD t cidx j hj, if_pos hpj]
              have hmem2 : some (rowRatio t cidx j) ∈ (ratioList t cidx).map maskPos := by
                rw [← this]
                exact getD_mem _ j none (by rwa [hmlen])
              rw [hmi]
              exact hle _ hmem2
            · intro j hj hpj
              have hne2 : ((ratioList t cidx).map maskPos).getD j none ≠ some m :=
                getD_ne_of_lt_idxOf _ _ j hj none
              rw [masked_getD t cidx j (lt_trans hj hilt), if_pos hpj] at hne2
              have : rowRatio t cidx j ≠ m := fun hc => hne2 (by rw [hc])
              have hlej : m ≤ rowRatio t cidx j := by
                have hmem2 : some (rowRatio t cidx j) ∈ (ratioList t cidx).map maskPos := by
                  have h2 : ((ratioList t cidx).map maskPos).getD j none =
                      some (rowRatio t cidx j) := by
                    rw [masked_getD t cidx j (lt_trans hj hilt), if_pos hpj]
                  rw [← h2]
                  exact getD_mem _ j none (by rw [hmlen]; exact lt_trans hj hilt)
                exact hle _ hmem2
              rw [hmi]
              exact lt_of_le_of_ne hlej (fun hc => this hc.symm)
          · rw [if_neg hpi] at hgi
            exact absurd hgi.symm (Option.noConfusion)
        · exact PivotRowRes.noConfusion hres
  · intro s s2 cidx2 hdeg henter hpr
    unfold solveIter solveIterR
    dsimp only
    rw [if_neg (by simpa using hdeg)]
    rw [henter]
    dsimp only
    rw [hpr]

/-- Concrete tableau used to instantiate the ratio-test characterization:
one constraint row with pivot-column value -1 and RHS -2. -/
def c1T : List (List ℚ) := [[1, -1, 0, 0], [0, -1, 1, -2]]

theorem c1_amended_ratio_test_characterization_witness :
    (c1T.drop 1 ≠ []) ∧
    ((getPivotRow c1T 1 ["s2"] = .noPos ↔
        ∀ i < (c1T.drop 1).length, ¬ posRatioRow c1T 1 i) ∧
      (∀ r nm, getPivotRow c1T 1 ["s2"] = .found r nm →
        ∃ i, r = i + 1 ∧ i < (c1T.drop 1).length ∧
          i < (["s2"] : List String).length ∧
          nm = (["s2"] : List String).getD i "" ∧ posRatioRow c1T 1 i ∧
          (∀ j < (c1T.drop 1).length, posRatioRow c1T 1 j →
            rowRatio c1T 1 i ≤ rowRatio c1T 1 j) ∧
          (∀ j < i, posRatioRow c1T 1 j → rowRatio c1T 1 i < rowRatio c1T 1 j)) ∧
      (∀ (s s2 : SState) (cidx2 : ℕ),
        ¬((displayStep s (s.X.filter (fun v => ¬ v ∈ s.basic_variables))).2 = true ∧
          (displayStep s (s.X.filter (fun v => ¬ v ∈ s.basic_variables))).1.is_potentially_degenerate = true) →
        enterStep (postDisplay s (s.X.filter (fun v => ¬ v ∈ s.basic_variables)))
          (s.X.filter (fun v => ¬ v ∈ s.basic_variables)) = (s2, .proceed cidx2) →
        getPivotRow s2.tableau cidx2 s2.basic_variables = .noPos →
        solveIter s = .exit { s2 with unbounded_feasible_region := true } .unbounded)) :=
  ⟨by decide, c1_amended_ratio_test_characterization c1T 1 ["s2"] (by decide)⟩

/-! ## `np.min` / `np.max` / `np.argmin` facts -/

lemma foldl_min_le_init (xs : List ℚ) : ∀ a : ℚ, xs.foldl min a ≤ a := by
  induction xs with
  | nil => intro a; exact le_refl a
  | cons x xs ih =>
    intro a
    calc xs.foldl min (min a x) ≤ min a x := ih (min a x)
    _ ≤ a := min_le_left a x

lemma foldl_min_le_mem (xs : List ℚ) : ∀ (a x : ℚ), x ∈ xs → xs.foldl min a ≤ x := by
  induction xs with
  | nil => intro a x hx; simp at hx
  | cons y ys ih =>
    intro a x hx
    rcases List.mem_cons.mp hx with h | h
    · subst h
      calc ys.foldl min (min a x) ≤ min a x := foldl_min_le_init ys (min a x)
      _ ≤ x := min_le_right a x
    · exact ih (min a y) x h

lemma foldl_min_mem_or (xs : List ℚ) : ∀ a : ℚ, xs.foldl min a = a ∨ xs.foldl min a ∈ xs := by
  induction xs with
  | nil => intro a; exact Or.inl rfl
  | cons x xs ih =>
    intro a
    rcases ih (min a x) with h | h
    · rcases le_total a x with h2 | h2
      · rw [List.foldl_cons, h, min_eq_left h2]
        exact Or.inl rfl
      · rw [List.foldl_cons, h, min_eq_right h2]
        exact Or.inr (List.mem_cons_self x xs)
    · exact Or.inr (List.mem_cons_of_mem x h)

lemma foldl_max_ge_init (xs : List ℚ) : ∀ a : ℚ, a ≤ xs.foldl max a := by
  induction xs with
  | nil => intro a; exact le_refl a
  | cons x xs ih =>
    intro a
    calc a ≤ max a x := le_max_left a x
    _ ≤ xs.foldl max (max a x) := ih (max a x)

lemma foldl_max_ge_mem (xs : List ℚ) : ∀ (a x : ℚ), x ∈ xs → x ≤ xs.foldl max a := by
  induction xs with
  | nil => intro a x hx; simp at hx
  | cons y ys ih =>
    intro a x hx
    rcases List.mem_cons.mp hx with h | h
    · subst h
      calc x ≤ max a x := le_max_right a x
      _ ≤ ys.foldl max (max a x) := foldl_max_ge_init ys (max a x)
    · exact ih (max a y) x h

lemma foldl_max_mem_or (xs : List ℚ) : ∀ a : ℚ, xs.foldl max a = a ∨ xs.foldl max a ∈ xs := by
  induction xs with
  | nil => intro a; exact Or.inl rfl
  | cons x xs ih =>
    intro a
    rcases ih (max a x) with h | h
    · rcases le_total a x with h2 | h2
      · rw [List.foldl_cons, h, max_eq_right h2]
        exact Or.inr (List.mem_cons_self x xs)
      · rw [List.foldl_cons, h, max_eq_left h2]
        exact Or.inl rfl
    · exact Or.inr (List.mem_cons_of_mem x h)

lemma npMinimum_le (l : List ℚ) (x : ℚ) (hx : x ∈ l) : npMinimum l ≤ x := by
  cases l with
  | nil => simp at hx
  | cons y ys =>
    show List.foldl min y ys ≤ x
    rcases List.mem_cons.mp hx with h | h
    · subst h
      exact foldl_min_le_init ys x
    · exact foldl_min_le_mem ys y x h

lemma npMinimum_mem (l : List ℚ) (h : l ≠ []) : npMinimum l ∈ l := by
  cases l with
  | nil => exact absurd rfl h
  | cons y ys =>
    show List.foldl min y ys ∈ y :: ys
    rcases foldl_min_mem_or ys y with h2 | h2
    · rw [h2]
      exact List.mem_cons_self y ys
    · exact List.mem_cons_of_mem y h2

lemma npMaximum_ge (l : List ℚ) (x : ℚ) (hx : x ∈ l) : x ≤ npMaximum l := by
  cases l with
  | nil => simp at hx
  | cons y ys =>
    show x ≤ List.foldl max y ys
    rcases List.mem_cons.mp hx with h | h
    · subst h
      exact foldl_max_ge_init ys x
    · exact foldl_max_ge_mem ys y x h

lemma npMaximum_mem (l : List ℚ) (h : l ≠ []) : npMaximum l ∈ l := by
  cases l with
  | nil => exact absurd rfl h
  | cons y ys =>
    show List.foldl max y ys ∈ y :: ys
    rcases foldl_max_mem_or ys y with h2 | h2
    · rw [h2]
      exact List.mem_cons_self y ys
    · exact List.mem_cons_of_mem y h2

lemma idxOf_le_of_getD {α : Type} [DecidableEq α] (a : α) (l : List α) (j : ℕ) (d : α)
    (hj : j < l.length) (h : l.getD j d = a) : idxOf a l ≤ j := by
  induction l generalizing j with
  | nil => simp at hj
  | cons x xs ih =>
    by_cases hx : x = a
    · simp [idxOf, hx]
    · cases j with
      | zero =>
        simp only [List.getD_cons_zero] at h
        exact absurd h hx
      | succ j2 =>
        simp only [idxOf, hx, if_false]
        have := ih j2 (by simpa using hj) (by simpa using h)
        omega

/-- C5: the entering variable is chosen by Dantzig's rule over the
objective row excluding the z column (`tableau[0][1:]`, which therefore
also carries the trailing RHS entry): for a maximize problem the first
column attaining the minimum value, for a minimize problem the first
column attaining the maximum value; when the extreme value is non-zero
`_get_entering_variable` returns that column as the pivot column with the
state unchanged, so the iteration proceeds with it. -/
theorem c5_dantzig_entering_selection (s : SState) (nb : List String)
    (vals : List ℚ) (v : ℚ)
    (hvals : (s.tableau.getD 0 []).drop 1 = vals) (hne : vals ≠ [])
    (hlow : String.mk (s.problem_type.data.map Char.toLower) = "maximize" ∨
            String.mk (s.problem_type.data.map Char.toLower) = "minimize")
    (hv : v = if String.mk (s.problem_type.data.map Char.toLower) = "maximize"
              then npMinimum vals else npMaximum vals)
    (hidx : idxOf v vals < s.X.length) (hnz : v ≠ 0) :
    enterStep s nb = (s, .proceed (idxOf v vals + 1)) ∧
    v ∈ vals ∧
    (String.mk (s.problem_type.data.map Char.toLower) = "maximize" →
      ∀ x ∈ vals, v ≤ x) ∧
    (String.mk (s.problem_type.data.map Char.toLower) = "minimize" →
      ∀ x ∈ vals, x ≤ v) ∧
    vals.getD (idxOf v vals) 0 = v ∧
    (∀ j, j < idxOf v vals → vals.getD j 0 ≠ v) := by
  rcases hlow with hl | hl
  · rw [hl, if_pos rfl] at hv
    have hvm : v ∈ vals := hv ▸ npMinimum_mem vals hne
    refine ⟨?_, hvm, ?_, ?_, getD_idxOf v vals hvm 0,
      fun j hj => getD_ne_of_lt_idxOf v vals j hj 0⟩
    · unfold enterStep
      dsimp only
      rw [hvals, hl]
      rw [if_neg hne]
      rw [if_pos (show ("maximize" : String) = "maximize" ∨
        ("maximize" : String) = "minimize" from Or.inl rfl)]
      rw [if_pos (rfl : ("maximize" : String) = "maximize")]
      rw [← hv]
      simp only [Nat.add_sub_cancel]
      rw [if_pos hidx, if_neg hnz]
    · intro _ x hx
      rw [hv]
      exact npMinimum_le vals x hx
    · intro hcon
      rw [hl] at hcon
      exact absurd hcon (by decide)
  · rw [hl, if_neg (by decide)] at hv
    have hvm : v ∈ vals := hv ▸ npMaximum_mem vals hne
    refine ⟨?_, hvm, ?_, ?_, getD_idxOf v vals hvm 0,
      fun j hj => getD_ne_of_lt_idxOf v vals j hj 0⟩
    · unfold enterStep
      dsimp only
      rw [hvals, hl]
      rw [if_neg hne]
      rw [if_pos (show ("minimize" : String) = "maximize" ∨
        ("minimize" : String) = "minimize" from Or.inr rfl)]
      rw [if_neg (show ¬("minimize" : String) = "maximize" by decide)]
      rw [← hv]
      simp only [Nat.add_sub_cancel]
      rw [if_pos hidx, if_neg hnz]
    · intro hcon
      rw [hl] at hcon
      exact absurd hcon (by decide)
    · intro _ x hx
      rw [hv]
      exact npMaximum_ge vals x hx

/-- A simple one-constraint maximize state used to instantiate the
entering-variable theorems. -/
def c5S : SState :=
  { problem_type := "Maximize"
    tableau := [[1, -2, -1, 0], [0, 1, 1, 4]]
    X := ["x1", "x2"]
    basic_variables := ["s2"]
    solution := [("x1", none), ("x2", none), ("s2", none)]
    alternative_solution := [("x1", none), ("x2", none), ("s2", none)]
    alternative_optima_exist := false
    degenerate_solution := false
    unbounded_feasible_region := false
    is_potentially_degenerate := false
    z := none }

theorem c5_dantzig_entering_selection_witness :
    ((c5S.tableau.getD 0 []).drop 1 = [-2, -1, 0] ∧ ([-2, -1, 0] : List ℚ) ≠ [] ∧
      (String.mk (c5S.problem_type.data.map Char.toLower) = "maximize" ∨
       String.mk (c5S.problem_type.data.map Char.toLower) = "minimize") ∧
      (-2 : ℚ) = (if String.mk (c5S.problem_type.data.map Char.toLower) = "maximize"
        then npMinimum [-2, -1, 0] else npMaximum [-2, -1, 0]) ∧
      idxOf (-2 : ℚ) [-2, -1, 0] < c5S.X.length ∧ (-2 : ℚ) ≠ 0) ∧
    (enterStep c5S [] = (c5S, .proceed (idxOf (-2 : ℚ) [-2, -1, 0] + 1)) ∧
      (-2 : ℚ) ∈ [-2, -1, 0] ∧
      (String.mk (c5S.problem_type.data.map Char.toLower) = "maximize" →
        ∀ x ∈ ([-2, -1, 0] : List ℚ), (-2 : ℚ) ≤ x) ∧
      (String.mk (c5S.problem_type.data.map Char.toLower) = "minimize" →
        ∀ x ∈ ([-2, -1, 0] : List ℚ), x ≤ (-2 : ℚ)) ∧
      ([-2, -1, 0] : List ℚ).getD (idxOf (-2 : ℚ) [-2, -1, 0]) 0 = -2 ∧
      (∀ j, j < idxOf (-2 : ℚ) [-2, -1, 0] → ([-2, -1, 0] : List ℚ).getD j 0 ≠ -2)) := by
  have h1 : (c5S.tableau.getD 0 []).drop 1 = ([-2, -1, 0] : List ℚ) := rfl
  have h2 : ([-2, -1, 0] : List ℚ) ≠ [] := by simp
  have h3 : String.mk (c5S.problem_type.data.map Char.toLower) = "maximize" ∨
      String.mk (c5S.problem_type.data.map Char.toLower) = "minimize" :=
    Or.inl (by decide)
  have h4 : (-2 : ℚ) = (if String.mk (c5S.problem_type.data.map Char.toLower) = "maximize"
      then npMinimum [-2, -1, 0] else npMaximum [-2, -1, 0]) := by
    simp +decide [c5S, npMinimum]
  have h5 : idxOf (-2 : ℚ) [-2, -1, 0] < c5S.X.length := by
    simp +decide [c5S, idxOf]
  have h6 : (-2 : ℚ) ≠ 0 := by norm_num
  exact ⟨⟨h1, h2, h3, h4, h5, h6⟩,
    c5_dantzig_entering_selection c5S [] [-2, -1, 0] (-2) h1 h2 h3 h4 h5 h6⟩

/-- C6: when the extreme objective-row value is exactly 0 at a variable
column, `_get_entering_variable` either signals alternate optima or stops:
if the alternate-optima flag is still clear and the selected variable is
currently non-basic, the current solution is snapshotted into
`alternative_solution`, the flag is set, and the selection proceeds with
that column (one more pivot cycle); if instead the selected variable is
already basic (hence absent from the non-basic list the solver passes in),
`ZeroEnteringVariableError` is raised, which the solve loop turns into an
Optimal exit. -/
theorem c6_zero_entering_alternate_or_optimal (s : SState) (nb : List String)
    (vals : List ℚ) (v : ℚ)
    (hvals : (s.tableau.getD 0 []).drop 1 = vals) (hne : vals ≠ [])
    (hlow : String.mk (s.problem_type.data.map Char.toLower) = "maximize" ∨
            String.mk (s.problem_type.data.map Char.toLower) = "minimize")
    (hv : v = if String.mk (s.problem_type.data.map Char.toLower) = "maximize"
              then npMinimum vals else npMaximum vals)
    (hidx : idxOf v vals < s.X.length) (hz : v = 0) :
    (s.alternative_optima_exist = false → s.X.getD (idxOf v vals) "" ∈ nb →
      enterStep s nb =
        ({ s with alternative_optima_exist := true,
                  alternative_solution := s.solution }, .proceed (idxOf v vals + 1))) ∧
    (s.X.getD (idxOf v vals) "" ∈ s.basic_variables →
      enterStep s (s.X.filter (fun w => ¬ w ∈ s.basic_variables)) = (s, .zeroStop)) ∧
    (∀ (s0 s3 : SState),
      ¬((displayStep s0 (s0.X.filter (fun w => ¬ w ∈ s0.basic_variables))).2 = true ∧
        (displayStep s0 (s0.X.filter (fun w => ¬ w ∈ s0.basic_variables))).1.is_potentially_degenerate = true) →
      enterStep (postDisplay s0 (s0.X.filter (fun w => ¬ w ∈ s0.basic_variables)))
        (s0.X.filter (fun w => ¬ w ∈ s0.basic_variables)) = (s3, .zeroStop) →
      solveIter s0 = .exit s3 .optimal) := by
  have key : ∀ nb2 : List String, enterStep s nb2 =
      if ¬s.alternative_optima_exist ∧ s.X.getD (idxOf v vals) "" ∈ nb2 then
        ({ s with alternative_optima_exist := true,
                  alternative_solution := s.solution }, .proceed (idxOf v vals + 1))
      else (s, .zeroStop) := by
    intro nb2
    rcases hlow with hl | hl
    · rw [hl, if_pos rfl] at hv
      unfold enterStep
      dsimp only
      rw [hvals, hl]
      rw [if_neg hne]
      rw [if_pos (show ("maximize" : String) = "maximize" ∨
        ("maximize" : String) = "minimize" from Or.inl rfl)]
      rw [if_pos (rfl : ("maximize" : String) = "maximize")]
      rw [← hv]
      simp only [Nat.add_sub_cancel]
      rw [if_pos hidx, if_pos hz]
    · rw [hl, if_neg (by decide)] at hv
      unfold enterStep
      dsimp only
      rw [hvals, hl]
      rw [if_neg hne]
      rw [if_pos (show ("minimize" : String) = "maximize" ∨
        ("minimize" : String) = "minimize" from Or.inr rfl)]
      rw [if_neg (show ¬("minimize" : String) = "maximize" by decide)]
      rw [← hv]
      simp only [Nat.add_sub_cancel]
      rw [if_pos hidx, if_pos hz]
  refine ⟨?_, ?_, ?_⟩
  · intro halt hmem
    rw [key nb]
    rw [if_pos ⟨by simp [halt], hmem⟩]
  · intro hbasic
    have hnmem : s.X.getD (idxOf v vals) "" ∉
        s.X.filter (fun w => ¬ w ∈ s.basic_variables) := by
      intro hcon
      have h2 := (List.mem_filter.mp hcon).2
      simp only [decide_eq_true_eq] at h2
      exact h2 hbasic
    rw [key _]
    rw [if_neg (fun hcon => hnmem hcon.2)]
  · intro s0 s3 hdeg henter
    unfold solveIter solveIterR
    dsimp only
    rw [if_neg (by simpa using hdeg)]
    rw [henter]

theorem c6_zero_entering_alternate_or_optimal_witness :
    ((altUnbState0.tableau.getD 0 []).drop 1 = [0, 0, 0] ∧ ([0, 0, 0] : List ℚ) ≠ [] ∧
      (String.mk (altUnbState0.problem_type.data.map Char.toLower) = "maximize" ∨
       String.mk (altUnbState0.problem_type.data.map Char.toLower) = "minimize") ∧
      (0 : ℚ) = (if String.mk (altUnbState0.problem_type.data.map Char.toLower) = "maximize"
        then npMinimum [0, 0, 0] else npMaximum [0, 0, 0]) ∧
      idxOf (0 : ℚ) [0, 0, 0] < altUnbState0.X.length ∧ (0 : ℚ) = 0) ∧
    ((altUnbState0.alternative_optima_exist = false →
        altUnbState0.X.getD (idxOf (0 : ℚ) [0, 0, 0]) "" ∈ ["x1"] →
        enterStep altUnbState0 ["x1"] =
          ({ altUnbState0 with alternative_optima_exist := true,
                               alternative_solution := altUnbState0.solution },
            .proceed (idxOf (0 : ℚ) [0, 0, 0] + 1))) ∧
      (altUnbState0.X.getD (idxOf (0 : ℚ) [0, 0, 0]) "" ∈ altUnbState0.basic_variables →
        enterStep altUnbState0
          (altUnbState0.X.filter (fun w => ¬ w ∈ altUnbState0.basic_variables)) =
          (altUnbState0, .zeroStop)) ∧
      (∀ (s0 s3 : SState),
        ¬((displayStep s0 (s0.X.filter (fun w => ¬ w ∈ s0.basic_variables))).2 = true ∧
          (displayStep s0 (s0.X.filter (fun w => ¬ w ∈ s0.basic_variables))).1.is_potentially_degenerate = true) →
        enterStep (postDisplay s0 (s0.X.filter (fun w => ¬ w ∈ s0.basic_variables)))
          (s0.X.filter (fun w => ¬ w ∈ s0.basic_variables)) = (s3, .zeroStop) →
        solveIter s0 = .exit s3 .optimal)) := by
  have h1 : (altUnbState0.tableau.getD 0 []).drop 1 = ([0, 0, 0] : List ℚ) := rfl
  have h2 : ([0, 0, 0] : List ℚ) ≠ [] := by simp
  have h3 : String.mk (altUnbState0.problem_type.data.map Char.toLower) = "maximize" ∨
      String.mk (altUnbState0.problem_type.data.map Char.toLower) = "minimize" :=
    Or.inl (by decide)
  have h4 : (0 : ℚ) = (if String.mk (altUnbState0.problem_type.data.map Char.toLower) =
      "maximize" then npMinimum [0, 0, 0] else npMaximum [0, 0, 0]) := by
    simp +decide [altUnbState0, npMinimum]
  have h5 : idxOf (0 : ℚ) [0, 0, 0] < altUnbState0.X.length := by
    simp +decide [altUnbState0, idxOf]
  have h6 : (0 : ℚ) = 0 := rfl
  exact ⟨⟨h1, h2, h3, h4, h5, h6⟩,
    c6_zero_entering_alternate_or_optimal altUnbState0 ["x1"] [0, 0, 0] 0 h1 h2 h3 h4 h5 h6⟩

/-! ## The pivot update produces a unit column -/

lemma getD_zipWith (f : ℚ → ℚ → ℚ) (l1 : List ℚ) : ∀ (l2 : List ℚ) (i : ℕ),
    i < l1.length → i < l2.length →
    (List.zipWith f l1 l2).getD i 0 = f (l1.getD i 0) (l2.getD i 0) := by
  induction l1 with
  | nil => intro l2 i h1 h2; simp at h1
  | cons x xs ih =>
    intro l2 i h1 h2
    cases l2 with
    | nil => simp at h2
    | cons y ys =>
      cases i with
      | zero => rfl
      | succ j =>
        simp only [List.zipWith_cons_cons, List.getD_cons_succ]
        exact ih ys j (by simpa using h1) (by simpa using h2)

lemma getD_range_map {β : Type} (g : ℕ → β) (n i : ℕ) (h : i < n) (d : β) :
    ((List.range n).map g).getD i d = g i := by
  rw [getD_map_of_lt (List.range n) g i (by simpa using h) 0 d]
  congr 1
  rw [List.getD_eq_getElem?_getD, List.getElem?_range h]
  rfl

lemma updateTableau_length (t : List (List ℚ)) (ridx cidx : ℕ) (p : ℚ) :
    (updateTableau t ridx cidx p).length = t.length := by
  simp [updateTableau]

/-- C7: after a pivot on a non-zero pivot element `p` at row `ridx`,
column `cidx` of a rectangular tableau, the updated tableau has the same
number of rows and the pivot column is the unit vector: 1 at the pivot
row (that row was divided by `p`) and 0 in every other row (each other
row had its own pivot-column value times the normalized pivot row
subtracted); and the solve loop records the pivot by replacing the basis
entry at the pivot row with the entering variable's name while installing
the updated tableau. -/
theorem c7_pivot_unit_column (t : List (List ℚ)) (ridx cidx w : ℕ) (p : ℚ)
    (hrect : ∀ r ∈ t, r.length = w) (hc : cidx < w) (hr : ridx < t.length)
    (hp : p = (t.getD ridx []).getD cidx 0) (hpnz : p ≠ 0) :
    (updateTableau t ridx cidx p).length = t.length ∧
    (∀ i, i < t.length →
      ((updateTableau t ridx cidx p).getD i []).getD cidx 0 =
        if i = ridx then 1 else 0) ∧
    (∀ (s0 s3 : SState) (cidx2 ridx2 : ℕ) (nm : String),
      ¬((displayStep s0 (s0.X.filter (fun v => ¬ v ∈ s0.basic_variables))).2 = true ∧
        (displayStep s0 (s0.X.filter (fun v => ¬ v ∈ s0.basic_variables))).1.is_potentially_degenerate = true) →
      enterStep (postDisplay s0 (s0.X.filter (fun v => ¬ v ∈ s0.basic_variables)))
        (s0.X.filter (fun v => ¬ v ∈ s0.basic_variables)) = (s3, .proceed cidx2) →
      getPivotRow s3.tableau cidx2 s3.basic_variables = .found ridx2 nm →
      solveIter s0 = .cont { s3 with
        basic_variables := s3.basic_variables.set (ridx2 - 1) (s3.X.getD (cidx2 - 1) ""),
        tableau := updateTableau s3.tableau ridx2 cidx2
          ((s3.tableau.getD ridx2 []).getD cidx2 0) }) := by
  have hrowlen : ∀ j, j < t.length → (t.getD j []).length = w :=
    fun j hj => hrect _ (getD_mem t j [] hj)
  refine ⟨updateTableau_length t ridx cidx p, ?_, ?_⟩
  · intro i hi
    have hnp : ((t.getD ridx []).map (fun x => x / p)).length = w := by
      rw [List.length_map, hrowlen ridx hr]
    unfold updateTableau
    dsimp only
    rw [getD_range_map _ t.length i hi []]
    by_cases hir : i = ridx
    · rw [if_pos hir, if_pos hir]
      rw [getD_map_of_lt (t.getD ridx []) _ cidx (by rw [hrowlen ridx hr]; exact hc) 0 0]
      rw [← hp]
      exact div_self hpnz
    · rw [if_neg hir, if_neg hir]
      rw [getD_zipWith _ _ _ cidx (by rw [hrowlen i hi]; exact hc) (by rw [hnp]; exact hc)]
      rw [getD_map_of_lt (t.getD ridx []) _ cidx (by rw [hrowlen ridx hr]; exact hc) 0 0]
      rw [← hp]
      rw [div_self hpnz, mul_one, sub_self]
  · intro s0 s3 cidx2 ridx2 nm hdeg henter hfound
    unfold solveIter solveIterR
    dsimp only
    rw [if_neg (by simpa using hdeg)]
    rw [henter]
    dsimp only
    rw [hfound]

theorem c7_pivot_unit_column_witness :
    ((∀ r ∈ ([[1, 2, 3], [4, 5, 6]] : List (List ℚ)), r.length = 3) ∧
      1 < 3 ∧ 1 < ([[1, 2, 3], [4, 5, 6]] : List (List ℚ)).length ∧
      (5 : ℚ) = (([[1, 2, 3], [4, 5, 6]] : List (List ℚ)).getD 1 []).getD 1 0 ∧
      (5 : ℚ) ≠ 0) ∧
    ((updateTableau [[1, 2, 3], [4, 5, 6]] 1 1 5).length =
        ([[1, 2, 3], [4, 5, 6]] : List (List ℚ)).length ∧
      (∀ i, i < ([[1, 2, 3], [4, 5, 6]] : List (List ℚ)).length →
        ((updateTableau [[1, 2, 3], [4, 5, 6]] 1 1 5).getD i []).getD 1 0 =
          if i = 1 then 1 else 0) ∧
      (∀ (s0 s3 : SState) (cidx2 ridx2 : ℕ) (nm : String),
        ¬((displayStep s0 (s0.X.filter (fun v => ¬ v ∈ s0.basic_variables))).2 = true ∧
          (displayStep s0 (s0.X.filter (fun v => ¬ v ∈ s0.basic_variables))).1.is_potentially_degenerate = true) →
        enterStep (postDisplay s0 (s0.X.filter (fun v => ¬ v ∈ s0.basic_variables)))
          (s0.X.filter (fun v => ¬ v ∈ s0.basic_variables)) = (s3, .proceed cidx2) →
        getPivotRow s3.tableau cidx2 s3.basic_variables = .found ridx2 nm →
        solveIter s0 = .cont { s3 with
          basic_variables := s3.basic_variables.set (ridx2 - 1) (s3.X.getD (cidx2 - 1) ""),
          tableau := updateTableau s3.tableau ridx2 cidx2
            ((s3.tableau.getD ridx2 []).getD cidx2 0) })) := by
  have h1 : ∀ r ∈ ([[1, 2, 3], [4, 5, 6]] : List (List ℚ)), r.length = 3 := by
    intro r hr
    simp at hr
    rcases hr with h | h <;> subst h <;> rfl
  have h2 : (1 : ℕ) < 3 := by decide
  have h3 : 1 < ([[1, 2, 3], [4, 5, 6]] : List (List ℚ)).length := by decide
  have h4 : (5 : ℚ) = (([[1, 2, 3], [4, 5, 6]] : List (List ℚ)).getD 1 []).getD 1 0 := rfl
  have h5 : (5 : ℚ) ≠ 0 := by norm_num
  exact ⟨⟨h1, h2, h3, h4, h5⟩,
    c7_pivot_unit_column [[1, 2, 3], [4, 5, 6]] 1 1 3 5 h1 h2 h3 h4 h5⟩

/-! ## Grammar validity of scanned pairs, and the silent-skip behaviour -/

lemma mem_takeWhile_pred (p : Char → Bool) (l : List Char) (a : Char)
    (h : a ∈ l.takeWhile p) : p a = true := by
  induction l with
  | nil => simp at h
  | cons x xs ih =>
    by_cases hx : p x = true
    · rw [List.takeWhile_cons_of_pos hx] at h
      rcases List.mem_cons.mp h with h2 | h2
      · rwa [h2]
      · exact ih h2
    · rw [List.takeWhile_cons_of_neg hx] at h
      simp at h

lemma getLastD_mem (l : List Char) : l ≠ [] → ∀ d : Char, l.getLastD d ∈ l := by
  induction l with
  | nil => intro h; exact absurd rfl h
  | cons x xs ih =>
    intro _ d
    cases hx : xs with
    | nil =>
      subst hx
      simp [List.getLastD]
    | cons y ys =>
      subst hx
      have h2 := ih (by simp) x
      have h3 : (x :: y :: ys).getLastD d = (y :: ys).getLastD x := rfl
      rw [h3]
      exact List.mem_cons_of_mem x h2

/-- A grammar-valid scanned pair: group 1 is an optional sign followed by
digits, group 2 is a non-empty run of word characters. -/
def goodPair (pr : List Char × List Char) : Prop :=
  (∃ sgn ds : List Char, (sgn = [] ∨ sgn = ['+'] ∨ sgn = ['-']) ∧
    (∀ c ∈ ds, c.isDigit = true) ∧ pr.1 = sgn ++ ds) ∧
  pr.2 ≠ [] ∧ ∀ c ∈ pr.2, isWordChar c = true

lemma matchTerm_core_good (sgn1 cs2 : List Char) (pr : List Char × List Char)
    (rest : List Char) (hshape : sgn1 = [] ∨ sgn1 = ['+'] ∨ sgn1 = ['-'])
    (h : (if (cs2.dropWhile Char.isDigit).takeWhile isWordChar ≠ [] then
            some ((sgn1 ++ cs2.takeWhile Char.isDigit,
                   (cs2.dropWhile Char.isDigit).takeWhile isWordChar),
                  (cs2.dropWhile Char.isDigit).dropWhile isWordChar)
          else if cs2.takeWhile Char.isDigit ≠ [] then
            some ((sgn1 ++ (cs2.takeWhile Char.isDigit).dropLast,
                   [(cs2.takeWhile Char.isDigit).getLastD ' ']),
                  cs2.dropWhile Char.isDigit)
          else none) = some (pr, rest)) : goodPair pr := by
  by_cases hws : (cs2.dropWhile Char.isDigit).takeWhile isWordChar = []
  · rw [if_neg (not_not_intro hws)] at h
    by_cases hds : cs2.takeWhile Char.isDigit = []
    · rw [if_neg (not_not_intro hds)] at h
      exact Option.noConfusion h
    · rw [if_pos hds] at h
      injection h with h2
      injection h2 with h3 h4
      subst h3
      refine ⟨⟨sgn1, (cs2.takeWhile Char.isDigit).dropLast, hshape, ?_, rfl⟩, ?_, ?_⟩
      · intro d hd
        exact mem_takeWhile_pred Char.isDigit cs2 d (List.dropLast_subset _ hd)
      · simp
      · intro d hd
        rcases List.mem_cons.mp hd with h5 | h5
        · subst h5
          exact isWordChar_of_isDigit _ (mem_takeWhile_pred Char.isDigit cs2 _
            (getLastD_mem _ hds ' '))
        · simp at h5
  · rw [if_pos hws] at h
    injection h with h2
    injection h2 with h3 h4
    subst h3
    refine ⟨⟨sgn1, cs2.takeWhile Char.isDigit, hshape, ?_, rfl⟩, hws, ?_⟩
    · intro d hd
      exact mem_takeWhile_pred Char.isDigit cs2 d hd
    · intro d hd
      exact mem_takeWhile_pred isWordChar _ d hd

lemma matchTerm_good (cs : List Char) (pr : List Char × List Char) (rest : List Char)
    (h : matchTerm cs = some (pr, rest)) : goodPair pr := by
  unfold matchTerm at h
  cases cs with
  | nil =>
    dsimp only at h
    exact matchTerm_core_good [] [] pr rest (Or.inl rfl) h
  | cons c cs0 =>
    dsimp only at h
    by_cases hsgn : (c = '+' || c = '-') = true
    · rw [if_pos hsgn] at h
      dsimp only at h
      have hsgn2 : c = '+' ∨ c = '-' := by
        simp only [Bool.or_eq_true, decide_eq_true_eq] at hsgn
        exact hsgn
      have hshape : ([c] : List Char) = [] ∨ [c] = ['+'] ∨ [c] = ['-'] := by
        rcases hsgn2 with h5 | h5 <;> subst h5
        · exact Or.inr (Or.inl rfl)
        · exact Or.inr (Or.inr rfl)
      exact matchTerm_core_good [c] cs0 pr rest hshape h
    · rw [if_neg hsgn] at h
      dsimp only at h
      exact matchTerm_core_good [] (c :: cs0) pr rest (Or.inl rfl) h

lemma scanTermsAux_good : ∀ (fuel : ℕ) (cs : List Char) (pr : List Char × List Char),
    pr ∈ (scanTermsAux fuel cs).1 → goodPair pr := by
  intro fuel
  induction fuel with
  | zero =>
    intro cs pr h
    simp [scanTermsAux] at h
  | succ n ih =>
    intro cs pr h
    cases cs with
    | nil => simp [scanTermsAux] at h
    | cons c cs0 =>
      simp only [scanTermsAux] at h
      cases hm : matchTerm (c :: cs0) with
      | none =>
        rw [hm] at h
        dsimp only at h
        exact ih cs0 pr h
      | some v =>
        obtain ⟨pr2, rest⟩ := v
        rw [hm] at h
        dsimp only at h
        rcases List.mem_cons.mp h with h2 | h2
        · subst h2
          exact matchTerm_good _ _ _ hm
        · exact ih rest pr h2

/-- C9 (counterexample): on the left-hand side `x1 + @@` the token `@@`
matches no grammar-valid coefficient/variable pair; the spec-side parser
reports a failure (`none`), but the source's `parse_equation` silently
skips the two `@` characters and returns `([1], ["x1"])` — no error is
surfaced to the caller. -/
theorem c9_counterexample_unparseable_token_skipped :
    parse_equation "x1 + @@" = ([1], ["x1"]) ∧
    parse_equation_spec "x1 + @@" = none ∧
    some (parse_equation "x1 + @@") ≠ parse_equation_spec "x1 + @@" := by
  refine ⟨by decide, by decide, by decide⟩

/-- C9 (amended): `parse_equation` is total and never surfaces a parse
error: it keeps every pair the scanner matched — each such pair IS
grammar-valid (optional sign plus digits, then a non-empty word-character
run) — and silently drops unmatched characters; only the spec-modelled
variant turns the scanner's skipped-character flag into a `none` failure. -/
theorem c9_amended_silent_skip_with_valid_pairs (s : String)
    (pr : List Char × List Char)
    (hpr : pr ∈ (scanTerms (s.data.filter (fun c => c ≠ ' '))).1) :
    goodPair pr ∧
    (parse_equation_spec s = none ↔
      (scanTerms (s.data.filter (fun c => c ≠ ' '))).2 = true) ∧
    (parse_equation s).1 =
      (scanTerms (s.data.filter (fun c => c ≠ ' '))).1.map (fun q => coeffOfGroup q.1) ∧
    (parse_equation s).2 =
      (scanTerms (s.data.filter (fun c => c ≠ ' '))).1.map (fun q => String.mk q.2) := by
  refine ⟨?_, ?_, rfl, rfl⟩
  · unfold scanTerms at hpr
    exact scanTermsAux_good _ _ pr hpr
  · unfold parse_equation_spec
    dsimp only
    by_cases h : (scanTerms (s.data.filter (fun c => c ≠ ' '))).2 = true
    · rw [if_pos h]
      exact iff_of_true rfl h
    · rw [if_neg h]
      exact iff_of_false (by simp) h

theorem c9_amended_silent_skip_with_valid_pairs_witness :
    (([], ['x', '1']) ∈ (scanTerms ("x1 + @@".data.filter (fun c => c ≠ ' '))).1 ∧
    (goodPair ([], ['x', '1']) ∧
      (parse_equation_spec "x1 + @@" = none ↔
        (scanTerms ("x1 + @@".data.filter (fun c => c ≠ ' '))).2 = true) ∧
      (parse_equation "x1 + @@").1 =
        (scanTerms ("x1 + @@".data.filter (fun c => c ≠ ' '))).1.map
          (fun q => coeffOfGroup q.1) ∧
      (parse_equation "x1 + @@").2 =
        (scanTerms ("x1 + @@".data.filter (fun c => c ≠ ' '))).1.map
          (fun q => String.mk q.2))) := by
  have h1 : ([], ['x', '1']) ∈ (scanTerms ("x1 + @@".data.filter (fun c => c ≠ ' '))).1 := by
    decide
  exact ⟨h1, c9_amended_silent_skip_with_valid_pairs "x1 + @@" ([], ['x', '1']) h1⟩

/-! ## Reachable solver states and the entering-variable index bound -/

/-- Structural well-formedness maintained by the solver: one objective
row plus one row per basic variable, all rows of width `|X| + 2`
(z column, one column per variable, RHS column). -/
def StructOK (s : SState) : Prop :=
  s.tableau.length = s.basic_variables.length + 1 ∧
  ∀ r ∈ s.tableau, r.length = s.X.length + 2

/-- The objective-row invariant: some variable column of `tableau[0][1:]`
holds 0, and the trailing RHS entry of the objective row is ≥ 0 for
maximize problems and ≤ 0 for minimize problems. -/
def InvZ (s : SState) : Prop :=
  (∃ j, j < s.X.length ∧ ((s.tableau.getD 0 []).drop 1).getD j 0 = 0) ∧
  (String.mk (s.problem_type.data.map Char.toLower) = "maximize" →
    0 ≤ ((s.tableau.getD 0 []).drop 1).getD s.X.length 0) ∧
  (String.mk (s.problem_type.data.map Char.toLower) = "minimize" →
    ((s.tableau.getD 0 []).drop 1).getD s.X.length 0 ≤ 0)

/-- The scan of `_get_entering_variable` selects an index at or past the
end of the variable list (the claim's scenario: the extreme value is
attained only at the trailing RHS column, so `self.X[pivot_col_idx - 1]`
raises IndexError). -/
def enteringIndexOOB (s : SState) : Prop :=
  (s.tableau.getD 0 []).drop 1 ≠ [] ∧
  (String.mk (s.problem_type.data.map Char.toLower) = "maximize" ∨
   String.mk (s.problem_type.data.map Char.toLower) = "minimize") ∧
  s.X.length ≤ idxOf
    (if String.mk (s.problem_type.data.map Char.toLower) = "maximize"
     then npMinimum ((s.tableau.getD 0 []).drop 1)
     else npMaximum ((s.tableau.getD 0 []).drop 1))
    ((s.tableau.getD 0 []).drop 1)

/-- States reachable by the program: an initial state built from an
objective and constraint strings, or one more iteration of the solve
loop from a reachable state. -/
inductive ReachableLPP : SState → Prop
  | init (objective : String) (constraints : List String) (s : SState)
      (h : buildLPP objective constraints = some s) : ReachableLPP s
  | step (s s2 : SState) (h : ReachableLPP s) (h2 : solveIter s = .cont s2) :
      ReachableLPP s2

lemma splitRel_rels (cs : List Char) : ∀ pr ∈ (splitRel cs).2,
    pr.1 = ">=" ∨ pr.1 = "<=" ∨ pr.1 = "=" := by
  induction cs using splitRel.induct with
  | case1 => intro pr hpr; simp [splitRel] at hpr
  | case2 rest ih =>
    intro pr hpr
    rw [show splitRel ('>' :: '=' :: rest) =
      ([], (">=", (splitRel rest).1) :: (splitRel rest).2) from rfl] at hpr
    rcases List.mem_cons.mp hpr with h | h
    · subst h; exact Or.inl rfl
    · exact ih pr h
  | case3 rest ih =>
    intro pr hpr
    rw [show splitRel ('<' :: '=' :: rest) =
      ([], ("<=", (splitRel rest).1) :: (splitRel rest).2) from rfl] at hpr
    rcases List.mem_cons.mp hpr with h | h
    · subst h; exact Or.inr (Or.inl rfl)
    · exact ih pr h
  | case4 rest ih =>
    intro pr hpr
    rw [show splitRel ('=' :: rest) =
      ([], ("=", (splitRel rest).1) :: (splitRel rest).2) from rfl] at hpr
    rcases List.mem_cons.mp hpr with h | h
    · subst h; exact Or.inr (Or.inr rfl)
    · exact ih pr h
  | case5 c rest h1 h2 h3 ih =>
    intro pr hpr
    rw [splitRel.eq_5 c rest h1 h2 h3] at hpr
    exact ih pr hpr

lemma getD_append_left {α : Type} (l l2 : List α) (n : ℕ) (h : n < l.length) (d : α) :
    (l ++ l2).getD n d = l.getD n d := by
  rw [List.getD_eq_getElem?_getD, List.getElem?_append, if_pos h,
    ← List.getD_eq_getElem?_getD]

lemma getD_append_right2 {α : Type} (l l2 : List α) (n : ℕ) (h : l.length ≤ n) (d : α) :
    (l ++ l2).getD n d = l2.getD (n - l.length) d := by
  rw [List.getD_eq_getElem?_getD, List.getElem?_append_right h,
    ← List.getD_eq_getElem?_getD]

lemma getD_drop {α : Type} (l : List α) : ∀ (n i : ℕ) (d : α),
    (l.drop n).getD i d = l.getD (n + i) d := by
  induction l with
  | nil => intro n i d; simp
  | cons x xs ih =>
    intro n i d
    cases n with
    | zero => rw [List.drop_zero, Nat.zero_add]
    | succ m =>
      show (xs.drop m).getD i d = (x :: xs).getD (m + 1 + i) d
      have hidx : m + 1 + i = (m + i) + 1 := by omega
      rw [hidx, List.getD_cons_succ]
      exact ih m i d

lemma parseA_length (lhs : String) (vars : List String) :
    (Equation.parseA lhs vars).length = vars.length := by
  unfold Equation.parseA
  dsimp only
  by_cases h : (parse_equation lhs).2.length ≠ vars.length
  · rw [if_pos h]
    exact List.length_map _ _
  · rw [if_neg h]
    rw [List.length_map]
    rw [parse_equation_lengths lhs]
    exact not_not.mp h

/-- Every successful `Constraint.parse` appends exactly one fresh name to
both the variable order and the slack registry (the `!= "=="` guard is
always true, since the relation split produces only `>=`, `<=`, `=`),
and the stored coefficient vector has one entry per updated variable. -/
lemma Constraint_parse_appends (cstr : String) (vars slacks : List String)
    (out : ConstraintOut) (h : Constraint.parse cstr vars slacks = some out) :
    ∃ nm, out.vars = vars ++ [nm] ∧ out.slack_vars = slacks ++ [nm] ∧
      out.equation.A.length = vars.length + 1 := by
  unfold Constraint.parse at h
  rcases hsp : splitRel cstr.data with ⟨lhs, rels⟩
  rw [hsp] at h
  cases rels with
  | nil => exact Option.noConfusion h
  | cons pr rest =>
    obtain ⟨sign, rhsCs⟩ := pr
    cases rest with
    | cons pr2 rest2 => exact Option.noConfusion h
    | nil =>
      dsimp only at h
      have hm : (sign, rhsCs) ∈ (splitRel cstr.data).2 := by
        rw [hsp]
        exact List.mem_cons_self _ _
      have hsgn := splitRel_rels cstr.data (sign, rhsCs) hm
      have hneq : sign ≠ "==" := by
        rcases hsgn with h5 | h5 | h5 <;> subst h5 <;> decide
      rw [if_pos hneq] at h
      cases hlv : vars.getLast? with
      | none => rw [hlv] at h; exact Option.noConfusion h
      | some lv =>
        rw [hlv] at h
        dsimp only at h
        cases hlc : lv.data.getLast? with
        | none => rw [hlc] at h; exact Option.noConfusion h
        | some lc =>
          rw [hlc] at h
          dsimp only at h
          by_cases hdig : lc.isDigit = true
          · rw [if_pos hdig] at h
            refine ⟨slack_name lc, ?_⟩
            by_cases hge : sign = ">="
            · rw [if_pos hge] at h
              cases hq : parseFloatQ rhsCs with
              | none => rw [hq] at h; exact Option.noConfusion h
              | some rhsv =>
                rw [hq] at h
                dsimp only at h
                by_cases hneg2 : rhsv < 0
                · rw [if_pos hneg2] at h
                  injection h with h2
                  subst h2
                  refine ⟨rfl, rfl, ?_⟩
                  show (Equation.make _ _ (vars ++ [slack_name lc]) true).A.length =
                    vars.length + 1
                  unfold Equation.make
                  rw [if_pos rfl]
                  dsimp only
                  rw [List.length_map, parseA_length]
                  simp
                · rw [if_neg hneg2] at h
                  injection h with h2
                  subst h2
                  refine ⟨rfl, rfl, ?_⟩
                  show (Equation.make _ _ (vars ++ [slack_name lc]) false).A.length =
                    vars.length + 1
                  unfold Equation.make
                  rw [if_neg (by simp)]
                  dsimp only
                  rw [parseA_length]
                  simp
            · rw [if_neg hge] at h
              cases hq : parseFloatQ rhsCs with
              | none => rw [hq] at h; exact Option.noConfusion h
              | some rhsv =>
                rw [hq] at h
                injection h with h2
                subst h2
                refine ⟨rfl, rfl, ?_⟩
                show (Equation.make _ _ (vars ++ [slack_name lc]) false).A.length =
                  vars.length + 1
                unfold Equation.make
                rw [if_neg (by simp)]
                dsimp only
                rw [parseA_length]
                simp
          · rw [if_neg hdig] at h
            exact Option.noConfusion h

/-- The fold step of `LPP.parse_constraints`, named so that the fold can
be reasoned about with a general accumulator. -/
def pcStep (acc : Option (List String × List String × List Equation)) (cstr : String) :
    Option (List String × List String × List Equation) :=
  match acc with
  | none => none
  | some (vars, bs, eqs) =>
    match Constraint.parse cstr vars bs with
    | none => none
    | some out => some (out.vars, out.slack_vars, eqs ++ [out.equation])

lemma parse_constraints_eq (cons : List String) (X basics : List String) :
    LPP.parse_constraints cons X basics = cons.foldl pcStep (some (X, basics, [])) := rfl

lemma foldl_pcStep_none (cons : List String) : cons.foldl pcStep none = none := by
  induction cons with
  | nil => rfl
  | cons c cs ih =>
    rw [List.foldl_cons]
    exact ih

lemma pc_aux (cons : List String) : ∀ (V B : List String) (E : List Equation)
    (V2 B2 : List String) (E2 : List Equation),
    cons.foldl pcStep (some (V, B, E)) = some (V2, B2, E2) →
    V2.length = V.length + cons.length ∧ B2.length = B.length + cons.length ∧
    E2.length = E.length + cons.length ∧
    ((∀ e ∈ E, e.A.length ≤ V.length) → ∀ e ∈ E2, e.A.length ≤ V2.length) := by
  induction cons with
  | nil =>
    intro V B E V2 B2 E2 h
    simp only [List.foldl_nil, Option.some.injEq] at h
    injection h with hV hBE
    injection hBE with hB hE
    subst hV; subst hB; subst hE
    exact ⟨by simp, by simp, by simp, fun hin => by simpa using hin⟩
  | cons cstr rest ih =>
    intro V B E V2 B2 E2 h
    rw [List.foldl_cons] at h
    dsimp only [pcStep] at h
    cases hp : Constraint.parse cstr V B with
    | none =>
      rw [hp] at h
      rw [foldl_pcStep_none rest] at h
      exact Option.noConfusion h
    | some out =>
      rw [hp] at h
      dsimp only at h
      obtain ⟨nm, hv, hb, hlen⟩ := Constraint_parse_appends cstr V B out hp
      obtain ⟨l1, l2, l3, l4⟩ := ih out.vars out.slack_vars (E ++ [out.equation]) V2 B2 E2 h
      rw [hv] at l1
      rw [hb] at l2
      rw [List.length_append] at l1 l2
      refine ⟨by simp at l1 ⊢; omega, by simp at l2 ⊢; omega, ?_, ?_⟩
      · rw [List.length_append] at l3
        simp at l3 ⊢
        omega
      · intro hin
        refine l4 ?_
        intro e he
        rcases List.mem_append.mp he with h5 | h5
        · have := hin e h5
          rw [hv, List.length_append]
          simp
          omega
        · have he2 : e = out.equation := by simpa using h5
          subst he2
          rw [hlen, hv, List.length_append]
          simp

lemma row0_cols (c : List ℚ) (k : ℕ) (hk : 1 ≤ k) :
    ((c.map (fun x => -x) ++ List.replicate k (0 : ℚ)) ++ [0]).getD c.length 0 = 0 ∧
    ((c.map (fun x => -x) ++ List.replicate k (0 : ℚ)) ++ [0]).getD (c.length + k) 0 = 0 := by
  constructor
  · rw [getD_append_left _ _ _ (by simp; omega)]
    rw [getD_append_right2 _ _ _ (by simp)]
    have hz : c.length - (c.map (fun x => -x)).length = 0 := by simp
    rw [hz]
    cases k with
    | zero => omega
    | succ m => rfl
  · rw [getD_append_right2 _ _ _ (by simp)]
    have hz : c.length + k - (c.map (fun x => -x) ++ List.replicate k (0 : ℚ)).length = 0 := by
      simp
    rw [hz]
    rfl

/-- Every state built by `buildLPP` satisfies the structural and
objective-row invariants. -/
lemma buildLPP_inv (objective : String) (constraints : List String) (s : SState)
    (h : buildLPP objective constraints = some s) : StructOK s ∧ InvZ s := by
  unfold buildLPP at h
  cases hsc : splitColonEq objective.data with
  | nil => rw [hsc] at h; exact Option.noConfusion h
  | cons ptCs l1 =>
    cases l1 with
    | nil => rw [hsc] at h; exact Option.noConfusion h
    | cons objVar l2 =>
      cases l2 with
      | nil => rw [hsc] at h; exact Option.noConfusion h
      | cons objFnCs l3 =>
        cases l3 with
        | cons z4 l4 => rw [hsc] at h; exact Option.noConfusion h
        | nil =>
          rw [hsc] at h
          dsimp only at h
          cases hpc : LPP.parse_constraints constraints
              (parse_equation (String.mk objFnCs)).2 [] with
          | none => rw [hpc] at h; exact Option.noConfusion h
          | some trip =>
            obtain ⟨X, basics, eqs0⟩ := trip
            rw [hpc] at h
            dsimp only at h
            by_cases hce : constraints = []
            · rw [if_pos hce] at h
              exact Option.noConfusion h
            · rw [if_neg hce] at h
              injection h with h2
              subst h2
              have hkey := pc_aux constraints (parse_equation (String.mk objFnCs)).2 [] []
                X basics eqs0 (by rw [← parse_constraints_eq]; exact hpc)
              obtain ⟨kX, kB, kE, kMono⟩ := hkey
              simp only [List.length_nil] at kX kB kE
              have hA : ∀ e ∈ eqs0, e.A.length ≤ X.length := by
                refine kMono ?_
                intro e he
                simp at he
              have hclen : (parse_equation (String.mk objFnCs)).1.length =
                  (parse_equation (String.mk objFnCs)).2.length :=
                parse_equation_lengths _
              have hcpos : 0 < constraints.length := List.length_pos.mpr hce
              have hmaplen : ((parse_equation (String.mk objFnCs)).1.map
                  (fun (z : ℤ) => (z : ℚ))).length =
                  (parse_equation (String.mk objFnCs)).2.length := by
                rw [List.length_map]
                exact hclen
              constructor
              · constructor
                · dsimp only
                  simp only [List.length_cons, List.length_map]
                  omega
                · dsimp only
                  intro r hr
                  rcases List.mem_cons.mp hr with h5 | h5
                  · subst h5
                    simp only [List.length_cons, List.length_append, List.length_map,
                      List.length_replicate, List.length_nil]
                    omega
                  · obtain ⟨e, he, rfl⟩ := List.mem_map.mp h5
                    obtain ⟨e0, he0, rfl⟩ := List.mem_map.mp he
                    have hle := hA e0 he0
                    unfold Constraint.pad
                    rw [if_pos (by omega)]
                    dsimp only
                    simp only [List.length_append, List.length_cons,
                      List.length_replicate, List.length_nil]
                    omega
              · have hzero := row0_cols ((parse_equation (String.mk objFnCs)).1.map
                  (fun (z : ℤ) => (z : ℚ)))
                  (X.length - ((parse_equation (String.mk objFnCs)).1.map
                    (fun (z : ℤ) => (z : ℚ))).length)
                  (by rw [hmaplen]; omega)
                refine ⟨⟨((parse_equation (String.mk objFnCs)).1.map
                    (fun (z : ℤ) => (z : ℚ))).length, ?_, ?_⟩, ?_, ?_⟩
                · dsimp only
                  rw [hmaplen]
                  omega
                · dsimp only
                  simp only [List.getD_cons_zero, List.drop_succ_cons, List.drop_zero]
                  exact hzero.1
                · intro hmax
                  dsimp only
                  simp only [List.getD_cons_zero, List.drop_succ_cons, List.drop_zero]
                  rw [getD_append_right2 _ _ _ (by
                    simp only [List.length_append, List.length_map, List.length_replicate]
                    omega)]
                  have hix : X.length - (((parse_equation (String.mk objFnCs)).1.map
                      (fun (z : ℤ) => (z : ℚ))).map (fun x => -x) ++
                      List.replicate (X.length - ((parse_equation (String.mk objFnCs)).1.map
                        (fun (z : ℤ) => (z : ℚ))).length) (0 : ℚ)).length = 0 := by
                    simp only [List.length_append, List.length_map, List.length_replicate]
                    omega
                  rw [hix]
                  exact le_refl 0
                · intro hmin
                  dsimp only
                  simp only [List.getD_cons_zero, List.drop_succ_cons, List.drop_zero]
                  rw [getD_append_right2 _ _ _ (by
                    simp only [List.length_append, List.length_map, List.length_replicate]
                    omega)]
                  have hix : X.length - (((parse_equation (String.mk objFnCs)).1.map
                      (fun (z : ℤ) => (z : ℚ))).map (fun x => -x) ++
                      List.replicate (X.length - ((parse_equation (String.mk objFnCs)).1.map
                        (fun (z : ℤ) => (z : ℚ))).length) (0 : ℚ)).length = 0 := by
                    simp only [List.length_append, List.length_map, List.length_replicate]
                    omega
                  rw [hix]
                  exact le_refl 0

/-! ## Frame facts and inversion lemmas for one solve iteration -/

lemma displayStep_frame (s : SState) (nb : List String) :
    (displayStep s nb).1.tableau = s.tableau ∧ (displayStep s nb).1.X = s.X ∧
    (displayStep s nb).1.basic_variables = s.basic_variables ∧
    (displayStep s nb).1.problem_type = s.problem_type :=
  ⟨rfl, rfl, rfl, rfl⟩

lemma postDisplay_frame (s : SState) (nb : List String) :
    (postDisplay s nb).tableau = s.tableau ∧ (postDisplay s nb).X = s.X ∧
    (postDisplay s nb).basic_variables = s.basic_variables ∧
    (postDisplay s nb).problem_type = s.problem_type := by
  unfold postDisplay
  split
  · exact ⟨rfl, rfl, rfl, rfl⟩
  · exact ⟨rfl, rfl, rfl, rfl⟩

lemma enterStep_frame (s : SState) (nb : List String) :
    (enterStep s nb).1.tableau = s.tableau ∧ (enterStep s nb).1.X = s.X ∧
    (enterStep s nb).1.basic_variables = s.basic_variables ∧
    (enterStep s nb).1.problem_type = s.problem_type := by
  unfold enterStep
  dsimp only
  repeat' split
  all_goals exact ⟨rfl, rfl, rfl, rfl⟩

lemma solveIter_cont_inv (s s2 : SState) (h : solveIter s = .cont s2) :
    ∃ (s3 : SState) (cidx ridx : ℕ) (nm : String),
      enterStep (postDisplay s (s.X.filter (fun v => ¬ v ∈ s.basic_variables)))
        (s.X.filter (fun v => ¬ v ∈ s.basic_variables)) = (s3, .proceed cidx) ∧
      getPivotRow s3.tableau cidx s3.basic_variables = .found ridx nm ∧
      s2 = { s3 with
        basic_variables := s3.basic_variables.set (ridx - 1) (s3.X.getD (cidx - 1) ""),
        tableau := updateTableau s3.tableau ridx cidx
          ((s3.tableau.getD ridx []).getD cidx 0) } := by
  unfold solveIter solveIterR at h
  dsimp only at h
  by_cases hd : (displayStep s (s.X.filter (fun v => ¬ v ∈ s.basic_variables))).2 = true ∧
      (displayStep s (s.X.filter (fun v => ¬ v ∈ s.basic_variables))).1.is_potentially_degenerate = true
  · rw [if_pos hd] at h
    exact IterRes.noConfusion h
  · rw [if_neg hd] at h
    rcases henter : enterStep
        (postDisplay s (s.X.filter (fun v => ¬ v ∈ s.basic_variables)))
        (s.X.filter (fun v => ¬ v ∈ s.basic_variables)) with ⟨s3, eo⟩
    rw [henter] at h
    cases eo with
    | err => exact IterRes.noConfusion h
    | zeroStop => exact IterRes.noConfusion h
    | proceed cidx =>
      dsimp only at h
      cases hpr : getPivotRow s3.tableau cidx s3.basic_variables with
      | err =>
        rw [hpr] at h
        exact IterRes.noConfusion h
      | noPos =>
        rw [hpr] at h
        exact IterRes.noConfusion h
      | found ridx nm =>
        rw [hpr] at h
        dsimp only at h
        injection h with h2
        exact ⟨s3, cidx, ridx, nm, rfl, hpr, h2.symm⟩

lemma enterStep_proceed_inv (s0 : SState) (nb : List String) (s3 : SState) (cidx : ℕ)
    (h : enterStep s0 nb = (s3, .proceed cidx)) :
    (s0.tableau.getD 0 []).drop 1 ≠ [] ∧
    (String.mk (s0.problem_type.data.map Char.toLower) = "maximize" ∨
     String.mk (s0.problem_type.data.map Char.toLower) = "minimize") ∧
    cidx = idxOf (if String.mk (s0.problem_type.data.map Char.toLower) = "maximize"
        then npMinimum ((s0.tableau.getD 0 []).drop 1)
        else npMaximum ((s0.tableau.getD 0 []).drop 1)) ((s0.tableau.getD 0 []).drop 1) + 1 ∧
    cidx - 1 < s0.X.length := by
  unfold enterStep at h
  dsimp only at h
  by_cases hne : (s0.tableau.getD 0 []).drop 1 = []
  · rw [if_pos hne] at h
    injection h with h1 h2
    exact EnterOut.noConfusion h2
  · rw [if_neg hne] at h
    by_cases hlow : String.mk (s0.problem_type.data.map Char.toLower) = "maximize" ∨
        String.mk (s0.problem_type.data.map Char.toLower) = "minimize"
    · rw [if_pos hlow] at h
      refine ⟨hne, hlow, ?_⟩
      rcases hlow with hl | hl
      · rw [hl] at h ⊢
        rw [if_pos rfl] at h ⊢
        by_cases hidx : idxOf (npMinimum ((s0.tableau.getD 0 []).drop 1))
            ((s0.tableau.getD 0 []).drop 1) + 1 - 1 < s0.X.length
        · rw [if_pos hidx] at h
          by_cases hz : npMinimum ((s0.tableau.getD 0 []).drop 1) = 0
          · rw [if_pos hz] at h
            by_cases hc2 : ¬s0.alternative_optima_exist = true ∧
                s0.X.getD (idxOf (npMinimum ((s0.tableau.getD 0 []).drop 1))
                  ((s0.tableau.getD 0 []).drop 1) + 1 - 1) "" ∈ nb
            · rw [if_pos hc2] at h
              injection h with h1 h2
              injection h2 with h3
              exact ⟨h3.symm, by omega⟩
            · rw [if_neg hc2] at h
              injection h with h1 h2
              exact EnterOut.noConfusion h2
          · rw [if_neg hz] at h
            injection h with h1 h2
            injection h2 with h3
            exact ⟨h3.symm, by omega⟩
        · rw [if_neg hidx] at h
          injection h with h1 h2
          exact EnterOut.noConfusion h2
      · rw [hl] at h ⊢
        rw [if_neg (by decide : ¬("minimize" : String) = "maximize")] at h ⊢
        by_cases hidx : idxOf (npMaximum ((s0.tableau.getD 0 []).drop 1))
            ((s0.tableau.getD 0 []).drop 1) + 1 - 1 < s0.X.length
        · rw [if_pos hidx] at h
          by_cases hz : npMaximum ((s0.tableau.getD 0 []).drop 1) = 0
          · rw [if_pos hz] at h
            by_cases hc2 : ¬s0.alternative_optima_exist = true ∧
                s0.X.getD (idxOf (npMaximum ((s0.tableau.getD 0 []).drop 1))
                  ((s0.tableau.getD 0 []).drop 1) + 1 - 1) "" ∈ nb
            · rw [if_pos hc2] at h
              injection h with h1 h2
              injection h2 with h3
              exact ⟨h3.symm, by omega⟩
            · rw [if_neg hc2] at h
              injection h with h1 h2
              exact EnterOut.noConfusion h2
          · rw [if_neg hz] at h
            injection h with h1 h2
            injection h2 with h3
            exact ⟨h3.symm, by omega⟩
        · rw [if_neg hidx] at h
          injection h with h1 h2
          exact EnterOut.noConfusion h2
    · rw [if_neg hlow] at h
      injection h with h1 h2
      exact EnterOut.noConfusion h2

lemma enterStep_proceed_state (s0 : SState) (nb : List String) (s3 : SState) (cidx : ℕ)
    (h : enterStep s0 nb = (s3, .proceed cidx)) :
    s3.tableau = s0.tableau ∧ s3.X = s0.X ∧
    s3.basic_variables = s0.basic_variables ∧ s3.problem_type = s0.problem_type := by
  have hf := enterStep_frame s0 nb
  rw [h] at hf
  exact hf

lemma getPivotRow_found_inv (t : List (List ℚ)) (cidx : ℕ) (basic : List String)
    (r : ℕ) (nm : String) (h : getPivotRow t cidx basic = .found r nm) :
    ∃ i, r = i + 1 ∧ i < (t.drop 1).length ∧ i < basic.length ∧ posRatioRow t cidx i ∧
      rowRatio t cidx i =
        ((t.drop 1).getD i []).getD (((t.drop 1).getD i []).length - 1) 0 /
          ((t.drop 1).getD i []).getD cidx 0 := by
  unfold getPivotRow at h
  by_cases hmne : (ratioList t cidx).map maskPos = []
  · rw [if_pos hmne] at h
    exact PivotRowRes.noConfusion h
  · rw [if_neg hmne] at h
    have hmlen : ((ratioList t cidx).map maskPos).length = (t.drop 1).length := by
      simp [ratioList]
    cases hfold : ((ratioList t cidx).map maskPos).foldl minInf none with
    | none =>
      rw [hfold] at h
      exact PivotRowRes.noConfusion h
    | some m =>
      rw [hfold] at h
      obtain ⟨hmem, hle, -⟩ := foldl_minInf_some _ none m hfold
      rcases hmem with h5 | h5
      · exact Option.noConfusion h5
      · have hmpos : 0 < m := by
          obtain ⟨j, hj, hgj⟩ := mem_getD_exists _ _ h5 none
          rw [hmlen] at hj
          rw [masked_getD t cidx j hj] at hgj
          by_cases hpj : posRatioRow t cidx j
          · rw [if_pos hpj] at hgj
            have h6 : 0 < rowRatio t cidx j := hpj.2
            rw [Option.some.inj hgj] at h6
            exact h6
          · rw [if_neg hpj] at hgj
            exact absurd hgj.symm (Option.noConfusion)
        dsimp only at h
        rw [if_neg (by linarith)] at h
        set i := idxOf (some m) ((ratioList t cidx).map maskPos) with hidef
        have hilt : i < (t.drop 1).length := by
          rw [← hmlen]
          exact idxOf_lt_length _ _ h5
        split at h
        · rename_i hib
          simp only [PivotRowRes.found.injEq] at h
          obtain ⟨hr, hnm⟩ := h
          have hgi : ((ratioList t cidx).map maskPos).getD i none = some m :=
            getD_idxOf _ _ h5 none
          rw [masked_getD t cidx i hilt] at hgi
          by_cases hpi : posRatioRow t cidx i
          · exact ⟨i, hr.symm, hilt, hib, hpi, rfl⟩
          · rw [if_neg hpi] at hgi
            exact absurd hgi.symm (Option.noConfusion)
        · exact PivotRowRes.noConfusion h

/-- Under the structural and objective-row invariants the entering-variable
scan can never select the trailing RHS column. -/
lemma invariant_no_oob (s : SState) (hS : StructOK s) (hI : InvZ s) :
    ¬ enteringIndexOOB s := by
  rintro ⟨hne, hlow, hge⟩
  have ht0 : (s.tableau.getD 0 []).length = s.X.length + 2 :=
    hS.2 _ (getD_mem _ 0 [] (by have h9 := hS.1; omega))
  have hvlen : ((s.tableau.getD 0 []).drop 1).length = s.X.length + 1 := by
    rw [List.length_drop, ht0]
    omega
  obtain ⟨j0, hj0, hz0⟩ := hI.1
  rcases hlow with hl | hl
  · rw [hl] at hge
    rw [if_pos rfl] at hge
    have hvm : npMinimum ((s.tableau.getD 0 []).drop 1) ∈ (s.tableau.getD 0 []).drop 1 :=
      npMinimum_mem _ hne
    have hvle : npMinimum ((s.tableau.getD 0 []).drop 1) ≤ 0 := by
      have h6 := npMinimum_le ((s.tableau.getD 0 []).drop 1)
        (((s.tableau.getD 0 []).drop 1).getD j0 0) (getD_mem _ j0 0 (by omega))
      rwa [hz0] at h6
    rcases lt_or_eq_of_le hvle with hvlt | hveq
    · have hidxlt : idxOf (npMinimum ((s.tableau.getD 0 []).drop 1))
          ((s.tableau.getD 0 []).drop 1) < ((s.tableau.getD 0 []).drop 1).length :=
        idxOf_lt_length _ _ hvm
      have hidx_eq : idxOf (npMinimum ((s.tableau.getD 0 []).drop 1))
          ((s.tableau.getD 0 []).drop 1) = s.X.length := by omega
      have h7 := getD_idxOf (npMinimum ((s.tableau.getD 0 []).drop 1))
        ((s.tableau.getD 0 []).drop 1) hvm 0
      rw [hidx_eq] at h7
      have hrhs := hI.2.1 hl
      rw [h7] at hrhs
      linarith
    · have h8 := idxOf_le_of_getD (npMinimum ((s.tableau.getD 0 []).drop 1))
        ((s.tableau.getD 0 []).drop 1) j0 0 (by omega) (by rw [hz0, ← hveq])
      omega
  · rw [hl] at hge
    rw [if_neg (by decide)] at hge
    have hvm : npMaximum ((s.tableau.getD 0 []).drop 1) ∈ (s.tableau.getD 0 []).drop 1 :=
      npMaximum_mem _ hne
    have hvle : 0 ≤ npMaximum ((s.tableau.getD 0 []).drop 1) := by
      have h6 := npMaximum_ge ((s.tableau.getD 0 []).drop 1)
        (((s.tableau.getD 0 []).drop 1).getD j0 0) (getD_mem _ j0 0 (by omega))
      rwa [hz0] at h6
    rcases lt_or_eq_of_le hvle with hvlt | hveq
    · have hidxlt : idxOf (npMaximum ((s.tableau.getD 0 []).drop 1))
          ((s.tableau.getD 0 []).drop 1) < ((s.tableau.getD 0 []).drop 1).length :=
        idxOf_lt_length _ _ hvm
      have hidx_eq : idxOf (npMaximum ((s.tableau.getD 0 []).drop 1))
          ((s.tableau.getD 0 []).drop 1) = s.X.length := by omega
      have h7 := getD_idxOf (npMaximum ((s.tableau.getD 0 []).drop 1))
        ((s.tableau.getD 0 []).drop 1) hvm 0
      rw [hidx_eq] at h7
      have hrhs := hI.2.2 hl
      rw [h7] at hrhs
      linarith
    · have h8 := idxOf_le_of_getD (npMaximum ((s.tableau.getD 0 []).drop 1))
        ((s.tableau.getD 0 []).drop 1) j0 0 (by omega) (by rw [hz0, hveq])
      omega

/-! ## Preservation of the invariants through one pivot -/

lemma step_inv (s s2 : SState) (hS : StructOK s) (hI : InvZ s)
    (h : solveIter s = .cont s2) : StructOK s2 ∧ InvZ s2 := by
  obtain ⟨s3, cidx, ridx, nm, henter, hfound, hs2⟩ := solveIter_cont_inv s s2 h
  have hpf := postDisplay_frame s (s.X.filter (fun v => ¬ v ∈ s.basic_variables))
  obtain ⟨hef1, hef2, hef3, hef4⟩ := enterStep_proceed_state _ _ _ _ henter
  have ht3 : s3.tableau = s.tableau := by rw [hef1, hpf.1]
  have hX3 : s3.X = s.X := by rw [hef2, hpf.2.1]
  have hb3 : s3.basic_variables = s.basic_variables := by rw [hef3, hpf.2.2.1]
  have hp3 : s3.problem_type = s.problem_type := by rw [hef4, hpf.2.2.2]
  obtain ⟨hne', hlow', hcidx, hcb⟩ := enterStep_proceed_inv _ _ _ _ henter
  simp only [hpf.1, hpf.2.1, hpf.2.2.2] at hne' hlow' hcidx hcb
  obtain ⟨i, hri, hilt, hib, hpos, -⟩ :=
    getPivotRow_found_inv s3.tableau cidx s3.basic_variables ridx nm hfound
  rw [ht3] at hilt hpos
  rw [hb3] at hib
  have htlen0 : 0 < s.tableau.length := by have h9 := hS.1; omega
  have hrow0len : (s.tableau.getD 0 []).length = s.X.length + 2 :=
    hS.2 _ (getD_mem _ 0 [] htlen0)
  have hvlen : ((s.tableau.getD 0 []).drop 1).length = s.X.length + 1 := by
    rw [List.length_drop, hrow0len]
    omega
  have hrlt : ridx < s.tableau.length := by
    rw [List.length_drop] at hilt
    omega
  have hrowRlen : (s.tableau.getD ridx []).length = s.X.length + 2 :=
    hS.2 _ (getD_mem _ ridx [] hrlt)
  have hdropR : (s.tableau.drop 1).getD i [] = s.tableau.getD ridx [] := by
    rw [getD_drop]
    congr 1
    omega
  unfold posRatioRow at hpos
  rw [hdropR] at hpos
  obtain ⟨hpne, hppos⟩ := hpos
  rw [hrowRlen] at hppos
  have hidx2 : s.X.length + 2 - 1 = 1 + s.X.length := by omega
  rw [hidx2] at hppos
  subst hs2
  have hup0 : (updateTableau s.tableau ridx cidx
      ((s.tableau.getD ridx []).getD cidx 0)).getD 0 [] =
      List.zipWith (fun a b => a - (s.tableau.getD 0 []).getD cidx 0 * b)
        (s.tableau.getD 0 [])
        ((s.tableau.getD ridx []).map
          (fun x => x / ((s.tableau.getD ridx []).getD cidx 0))) := by
    unfold updateTableau
    dsimp only
    rw [getD_range_map _ _ 0 htlen0 []]
    rw [if_neg (by omega)]
  have hentry : ∀ k, k < s.X.length + 2 →
      ((updateTableau s.tableau ridx cidx
        ((s.tableau.getD ridx []).getD cidx 0)).getD 0 []).getD k 0 =
        (s.tableau.getD 0 []).getD k 0 - (s.tableau.getD 0 []).getD cidx 0 *
          ((s.tableau.getD ridx []).getD k 0 / ((s.tableau.getD ridx []).getD cidx 0)) := by
    intro k hk
    rw [hup0]
    rw [getD_zipWith _ _ _ k (by rw [hrow0len]; omega)
      (by rw [List.length_map, hrowRlen]; omega)]
    rw [getD_map_of_lt (s.tableau.getD ridx []) _ k (by rw [hrowRlen]; omega) 0 0]
  constructor
  · constructor
    · dsimp only
      rw [ht3, hb3]
      rw [updateTableau_length, List.length_set]
      exact hS.1
    · dsimp only
      rw [ht3, hX3]
      intro r hr
      unfold updateTableau at hr
      obtain ⟨i2, hi2, rfl⟩ := List.mem_map.mp hr
      have hi2lt : i2 < s.tableau.length := List.mem_range.mp hi2
      dsimp only
      by_cases hir : i2 = ridx
      · rw [if_pos hir]
        rw [List.length_map, hrowRlen]
      · rw [if_neg hir]
        rw [List.length_zipWith, List.length_map]
        rw [hS.2 _ (getD_mem _ i2 [] hi2lt), hrowRlen]
        exact min_self _
  · refine ⟨⟨cidx - 1, ?_, ?_⟩, ?_, ?_⟩
    · dsimp only
      rw [hX3]
      exact hcb
    · dsimp only
      rw [ht3]
      rw [getD_drop]
      have h9 : 1 + (cidx - 1) = cidx := by omega
      rw [h9]
      rw [hentry cidx (by omega)]
      rw [div_self hpne, mul_one, sub_self]
    · intro hmax
      dsimp only at hmax ⊢
      rw [hp3] at hmax
      rw [ht3, hX3]
      rw [getD_drop]
      rw [hentry (1 + s.X.length) (by omega)]
      obtain ⟨j0, hj0, hz0⟩ := hI.1
      have hrhs0 := hI.2.1 hmax
      rw [getD_drop] at hrhs0
      have hvne : (s.tableau.getD 0 []).getD cidx 0 ≤ 0 := by
        have hcol : (s.tableau.getD 0 []).getD cidx 0 =
            ((s.tableau.getD 0 []).drop 1).getD (cidx - 1) 0 := by
          rw [getD_drop]
          congr 1
          omega
        rw [hcol]
        rw [hmax] at hcidx
        rw [if_pos rfl] at hcidx
        have h10 : cidx - 1 = idxOf (npMinimum ((s.tableau.getD 0 []).drop 1))
            ((s.tableau.getD 0 []).drop 1) := by omega
        rw [h10, getD_idxOf _ _ (npMinimum_mem _ hne') 0]
        have h11 := npMinimum_le ((s.tableau.getD 0 []).drop 1)
          (((s.tableau.getD 0 []).drop 1).getD j0 0) (getD_mem _ j0 0 (by omega))
        rwa [hz0] at h11
      nlinarith [hrhs0, hvne, hppos]
    · intro hmin
      dsimp only at hmin ⊢
      rw [hp3] at hmin
      rw [ht3, hX3]
      rw [getD_drop]
      rw [hentry (1 + s.X.length) (by omega)]
      obtain ⟨j0, hj0, hz0⟩ := hI.1
      have hrhs0 := hI.2.2 hmin
      rw [getD_drop] at hrhs0
      have hvnn : 0 ≤ (s.tableau.getD 0 []).getD cidx 0 := by
        have hcol : (s.tableau.getD 0 []).getD cidx 0 =
            ((s.tableau.getD 0 []).drop 1).getD (cidx - 1) 0 := by
          rw [getD_drop]
          congr 1
          omega
        rw [hcol]
        rw [hmin] at hcidx
        rw [if_neg (by decide : ¬("minimize" : String) = "maximize")] at hcidx
        have h10 : cidx - 1 = idxOf (npMaximum ((s.tableau.getD 0 []).drop 1))
            ((s.tableau.getD 0 []).drop 1) := by omega
        rw [h10, getD_idxOf _ _ (npMaximum_mem _ hne') 0]
        have h11 := npMaximum_ge ((s.tableau.getD 0 []).drop 1)
          (((s.tableau.getD 0 []).drop 1).getD j0 0) (getD_mem _ j0 0 (by omega))
        rwa [hz0] at h11
      nlinarith [hrhs0, hvnn, hppos]

/-- Every reachable state satisfies the structural and objective-row
invariants. -/
lemma reachable_invariant (s : SState) (h : ReachableLPP s) : StructOK s ∧ InvZ s := by
  induction h with
  | init obj cons s0 h0 => exact buildLPP_inv obj cons s0 h0
  | step s0 s2 h0 h2 ih => exact step_inv s0 s2 ih.1 ih.2 h2

/-- An isolated (unreachable) state on which the entering-variable scan
selects the trailing RHS column, so `self.X[pivot_col_idx - 1]` would
raise IndexError (modelled as `.err`): the objective row is `[1, 5, -1]`
with a single variable, and the minimum -1 sits in the RHS column. -/
def c10S : SState :=
  { problem_type := "Maximize"
    tableau := [[1, 5, -1]]
    X := ["x1"]
    basic_variables := []
    solution := [("x1", none)]
    alternative_solution := [("x1", none)]
    alternative_optima_exist := false
    degenerate_solution := false
    unbounded_feasible_region := false
    is_potentially_degenerate := false
    z := none }

/-- The initial state of `Maximize: z = 2x1` subject to `x1 <= 2`. -/
def c10Init : SState :=
  { problem_type := "Maximize"
    tableau := [[1, -2, 0, 0], [0, 1, 1, 2]]
    X := ["x1", "s2"]
    basic_variables := ["s2"]
    solution := [("x1", none), ("s2", none)]
    alternative_solution := [("x1", none), ("s2", none)]
    alternative_optima_exist := false
    degenerate_solution := false
    unbounded_feasible_region := false
    is_potentially_degenerate := false
    z := none }

/-- C10 (counterexample): the claim asserts SOME reachable tableau state
makes the argmin/argmax select the trailing RHS column so that
`self.X[pivot_col_idx - 1]` indexes out of bounds.  No reachable state
does: every initial tableau has a zero at a padded variable column of the
objective row, every pivot re-zeroes the entering variable's column
there, and the objective row's RHS keeps the sign that prevents the RHS
column from being the unique extreme, so the selected index always stays
within the variable list. -/
theorem c10_counterexample_no_reachable_oob_state :
    ¬ ∃ s : SState, ReachableLPP s ∧ enteringIndexOOB s := by
  rintro ⟨s, hr, hoob⟩
  obtain ⟨hS, hI⟩ := reachable_invariant s hr
  exact invariant_no_oob s hS hI hoob

/-- C10 (amended): the entering-variable scan really does cover the
trailing RHS column — on every reachable state the scanned slice
`tableau[0][1:]` has length `|X| + 1` — and the name lookup
`self.X[pivot_col_idx - 1]` is partial in isolation (on the crafted
state `c10S` the scan selects the RHS column and the lookup raises
IndexError, modelled `.err`); but on every REACHABLE state the extreme
value is attained at a variable column first, so the selected index stays
in bounds and the IndexError cannot fire. -/
theorem c10_amended_rhs_column_scan_partiality (s : SState) (h : ReachableLPP s) :
    ¬ enteringIndexOOB s ∧
    ((s.tableau.getD 0 []).drop 1).length = s.X.length + 1 ∧
    (enteringIndexOOB c10S ∧ enterStep c10S [] = (c10S, .err)) := by
  obtain ⟨hS, hI⟩ := reachable_invariant s h
  refine ⟨invariant_no_oob s hS hI, ?_, ⟨?_, Or.inl (by decide), ?_⟩, ?_⟩
  · have htlen0 : 0 < s.tableau.length := by have h9 := hS.1; omega
    have hrow0len : (s.tableau.getD 0 []).length = s.X.length + 2 :=
      hS.2 _ (getD_mem _ 0 [] htlen0)
    rw [List.length_drop, hrow0len]
    omega
  · decide
  · simp +decide [c10S, npMinimum, npMaximum, idxOf]
  · simp +decide [enterStep, c10S, npMinimum, npMaximum, idxOf]

theorem c10_amended_rhs_column_scan_partiality_witness :
    ¬ enteringIndexOOB c10Init ∧
    ((c10Init.tableau.getD 0 []).drop 1).length = c10Init.X.length + 1 ∧
    (enteringIndexOOB c10S ∧ enterStep c10S [] = (c10S, .err)) :=
  c10_amended_rhs_column_scan_partiality c10Init
    (ReachableLPP.init "Maximize: z = 2x1" ["x1 <= 2"] c10Init
      (by simp +decide [buildLPP, splitColonEq, parse_equation, LPP.parse_constraints,
        Constraint.parse, splitRel, Equation.make, Equation.parseA, parseFloatQ,
        trimSpaces, coeffOfGroup, intOfChars, natOfDigits, Constraint.pad, c10Init]))
